import Mathlib

/-!
Verification development for the `mYstable` virtual-space namespace engine
(`src/namespace/namespace.py`).

The Python module is shallowly embedded here:

* paths and space names are `List Char` (Python `str` values);
* `SpaceBitmask`, `Node`, `VirtualSpace` and `NameSpace` become structures,
  with the mutating methods turned into state-passing functions;
* `treelib.Tree` is modelled in two layers:
  - `Mystable.Digest`: the digest-keyed store exactly as in
    `NameSpace._unique_digest` / `NameSpace._node_for_path`, parameterised by
    the byte-level hash function (the code uses truncated md5).  The theorems
    about this layer establish that the digest machinery is observationally a
    path-keyed map (same path resolves to the same node, distinct absolute
    paths never share a node identity);
  - the main layer keys tree entries directly by their path string, which is
    the faithful observational model given the digest-layer theorems.  Entry
    insertion order (treelib insertion order) is kept by appending;
* Python's `re` operations are used only with the two concrete patterns
  `\*\*(?!/$)(?!$)` and `/\*/(?!/$)(?!$)`; they are embedded as direct
  character-list scanners with the same leftmost-match semantics;
* `graphlib.TopologicalSorter` is embedded as a Kahn iteration that emits
  ready nodes in registration order, as CPython's implementation does;
* unbounded loops (`_unique_digest`, rule expansion, tree traversal) take an
  explicit fuel argument; all theorems about them are stated for runs in
  which the fuel sufficed, mirroring terminating Python executions.

`treelib.Tree.expand_tree` raises `NodeIDAbsentError` on an empty tree (the
root is `None`); `NameSpace._process_regex_nodes` is modelled as the identity
in that situation.  No theorem below depends on that case: wherever
`_process_regex_nodes` matters the tree is non-empty.
-/

set_option maxRecDepth 1000000

namespace Mystable

/-- A Python string (used for paths, rules and space names). -/
abbrev Path := List Char

/-! ### Python `str` / `os.path` helpers -/

/-- `isPref pat s` is Python `s.startswith(pat)`. -/
def isPref : Path → Path → Bool
  | [], _ => true
  | _ :: _, [] => false
  | p :: ps, c :: cs => p == c && isPref ps cs

/-- `isSuf pat s` is Python `s.endswith(pat)`. -/
def isSuf (pat s : Path) : Bool := isPref pat.reverse s.reverse

/-- Python `s.removeprefix(pat)` (our callers check `startswith` first). -/
def removePref (pat s : Path) : Path := s.drop pat.length

/-- Python `s.removesuffix(pat)` (our callers check `endswith` first). -/
def removeSuf (pat s : Path) : Path := s.take (s.length - pat.length)

/-- Python `s.split('/')` (note `''.split('/') == ['']`). -/
def splitSlash : Path → List Path
  | [] => [[]]
  | c :: cs =>
      let r := splitSlash cs
      if c = '/' then [] :: r
      else
        match r with
        | [] => [[c]]
        | h :: t => (c :: h) :: t

/-- Inverse of `splitSlash`: join components with `'/'`. -/
def sjoin : List Path → Path
  | [] => []
  | [p] => p
  | p :: ps => p ++ '/' :: sjoin ps

/-- Python `os.path.join(a, b)` for POSIX paths. -/
def osJoin (a b : Path) : Path :=
  if isPref ['/'] b then b
  else if a = [] then b
  else if isSuf ['/'] a then a ++ b
  else a ++ '/' :: b

/-- Drop trailing `'/'` characters (Python `head.rstrip('/')`). -/
def rstripSlash (p : Path) : Path := (p.reverse.dropWhile (fun c => c = '/')).reverse

/-- Python `os.path.split(p)[0]`: everything up to the last `'/'`, with
trailing slashes stripped unless the head consists only of slashes. -/
def osSplitHead (p : Path) : Path :=
  match p.reverse.findIdx? (fun c => c = '/') with
  | none => []
  | some j =>
      let head := p.take (p.length - j)
      if head ≠ [] ∧ ¬ (head.all (fun c => c = '/')) then rstripSlash head else head

/-- Leftmost occurrence of substring `pat` in `s`: returns the part before
the match and the part after it (Python `str.find` / `re` scan order). -/
def findSub (pat : Path) : Path → Option (Path × Path)
  | [] => if pat = [] then some ([], []) else none
  | c :: cs =>
      if isPref pat (c :: cs) then some ([], (c :: cs).drop pat.length)
      else
        match findSub pat cs with
        | some (pre, post) => some (c :: pre, post)
        | none => none

/-- Fuelled worker for `splitOnSub`. -/
def splitOnSubF (pat : Path) : Nat → Path → List Path
  | 0, s => [s]
  | f + 1, s =>
      match findSub pat s with
      | none => [s]
      | some (pre, post) => pre :: splitOnSubF pat f post

/-- Python `s.split(pat)` for a non-empty separator `pat`. -/
def splitOnSub (pat s : Path) : List Path := splitOnSubF pat (s.length + 1) s

/-! ### The `RuleInterpreter` constants and regex scanners -/

/-- `RuleInterpreter.recursive_pref`. -/
def recursive_pref : Path := ['r', 'e', 'c', 'u', 'r', 's', 'i', 'v', 'e', ' ']

/-- `RuleInterpreter.single_rec_block`. -/
def single_rec_block : Path := ['*']

/-- `RuleInterpreter.double_rec_block`. -/
def double_rec_block : Path := ['*', '*']

/-- `RuleInterpreter.recursive_regex`, the synthesized "all descendants" tag. -/
def recursive_regex : Path := ['.', '*']

/-- Fuelled worker for `subDoubleAll`.  A scan step consumes at least one
character, so the wrapper's fuel `s.length + 1` never runs out. -/
def subDoubleAllF : Nat → Path → Path
  | 0, s => s
  | _ + 1, [] => []
  | f + 1, c :: cs =>
      match cs with
      | c2 :: rest =>
          if c = '*' ∧ c2 = '*' ∧ rest ≠ [] ∧ rest ≠ ['/'] then
            '.' :: '*' :: subDoubleAllF f rest
          else c :: subDoubleAllF f cs
      | [] => c :: subDoubleAllF f cs

/-- `re.sub(r'\*\*(?!/$)(?!$)', '.*', s)`: replace every non-overlapping
occurrence of `**` whose right context is neither empty nor exactly `/`;
on a failed match the scan advances one character, as `re` does. -/
def subDoubleAll (s : Path) : Path := subDoubleAllF (s.length + 1) s

/-- Fuelled worker for `subSingleOnce`. -/
def subSingleOnceF (rep : Path) : Nat → Path → Option Path
  | 0, _ => none
  | _ + 1, [] => none
  | f + 1, c :: cs =>
      match cs with
      | c2 :: c3 :: rest =>
          if c = '/' ∧ c2 = '*' ∧ c3 = '/' ∧ rest ≠ [] ∧ rest ≠ ['/'] then
            some (rep ++ rest)
          else (subSingleOnceF rep f cs).map (fun r => c :: r)
      | _ => (subSingleOnceF rep f cs).map (fun r => c :: r)

/-- `re.sub(r'/\*/(?!/$)(?!$)', rep, s, 1)` together with `re.search` for the
same pattern: replace the leftmost occurrence of `/*/` whose right context
(after the match) is neither empty nor exactly `/`; `none` when the pattern
does not occur.  On a failed match the scan advances one character, as `re`
does. -/
def subSingleOnce (rep s : Path) : Option Path := subSingleOnceF rep (s.length + 1) s

/-- Replacement string `/.*/` used for the one-component alternative. -/
def repOne : Path := "/.*/".toList

/-- Replacement string `/.*/.*/` used for the two-component alternative. -/
def repTwo : Path := "/.*/.*/".toList

/-- `RuleInterpreter._proc_single_mid_rec_rule`, fuelled.  The first element
of the result is the add rule, the remaining ones are sub rules. -/
def proc_single_mid_rec_rule : Nat → Path → List Path
  | 0, p => [p]
  | f + 1, p =>
      match subSingleOnce repOne p with
      | none => [p]
      | some p1 =>
          let p2 := (subSingleOnce repTwo p).getD p
          proc_single_mid_rec_rule f p1 ++ proc_single_mid_rec_rule f p2

/-- `RuleInterpreter._proc_middle`. -/
def proc_middle (p : Path) : Path × List Path :=
  let substituted := subDoubleAll p
  let processed := proc_single_mid_rec_rule (substituted.length + 1) substituted
  (processed.headD substituted, processed.tail)

/-- Per-path body of the loop in `RuleInterpreter._proc_ending`. -/
def proc_ending_one (p0 : Path) : List Path × List Path :=
  let st1 : Path × Bool :=
    if isPref recursive_pref p0 then (removePref recursive_pref p0, true) else (p0, false)
  let p1 := st1.1
  let is_recursive := st1.2
  let st2 : Path × Bool × Bool :=
    if isSuf double_rec_block p1 then (removeSuf double_rec_block p1, true, false)
    else if isSuf single_rec_block p1 then (removeSuf single_rec_block p1, false, true)
    else (p1, false, false)
  let p2 := st2.1
  let isDouble := st2.2.1
  let isSingle := st2.2.2
  let isRecSuf := isDouble || isSingle
  if is_recursive && !isRecSuf then ([p2, osJoin p2 recursive_regex], [])
  else if isDouble || (is_recursive && isSingle) then ([osJoin p2 recursive_regex], [])
  else if !is_recursive && isSingle then
    let fc := osJoin p2 recursive_regex
    ([fc], [osJoin fc recursive_regex])
  else ([p2], [])

/-- `RuleInterpreter._proc_ending`. -/
def proc_ending (paths : List Path) : List Path × List Path :=
  paths.foldl
    (fun acc p =>
      let r := proc_ending_one p
      (acc.1 ++ r.1, acc.2 ++ r.2))
    ([], [])

/-- The two ways `space_add` can raise: the explicit
`ValueError("A subspace cannot use recursive keyword")` of
`RuleInterpreter._validate_rule`, and the `IndexError` of an out-of-range
`[0]` subscript on an empty string. -/
inductive RuleErr
  | valueError
  | indexError
deriving DecidableEq, Repr

/-- `RuleInterpreter._validate_rule`.  `none` means the rule is accepted. -/
def validate_rule (p : Path) : Option RuleErr :=
  let parts := splitOnSub recursive_pref p
  match parts with
  | _ :: second :: _ =>
      match second with
      | [] => some RuleErr.indexError
      | c :: _ => if c = '/' then none else some RuleErr.valueError
  | _ => none

/-- `RuleInterpreter.interpret_add_rule`: validation, then middle-wildcard
expansion, then trailing-block translation; returns (add rules, sub rules). -/
def interpret_add_rule (p : Path) : Except RuleErr (List Path × List Path) :=
  match validate_rule p with
  | some e => Except.error e
  | none =>
      let m := proc_middle p
      let e1 := proc_ending [m.1]
      let e2 := proc_ending m.2
      Except.ok (e1.1, e1.2 ++ e2.1 ++ e2.2)

/-! ### `SpaceBitmask` -/

/-- `SpaceBitmask`: per-node bitmask of active spaces plus the provenance
("set by a rule") bitmask. -/
structure SpaceBitmask where
  space_mask : Nat
  by_rule_mask : Nat
deriving DecidableEq, Repr

/-- The `SpaceBitmask.__init__` state. -/
def SpaceBitmask.init : SpaceBitmask := ⟨0, 0⟩

/-- `SpaceBitmask.mask_set`. -/
def SpaceBitmask.mask_set (m : SpaceBitmask) (space_id : Nat) (by_rule : Bool) : SpaceBitmask :=
  { space_mask := m.space_mask ||| (1 <<< space_id),
    by_rule_mask := if by_rule then m.by_rule_mask ||| (1 <<< space_id) else m.by_rule_mask }

/-- `SpaceBitmask.mask_unset` (never reached from the public operations: the
only caller of `Node.spaces_mask_unset` sets the negative mask instead).
Python clears the bit with `& ~(1 << space_id)`; on `Nat` we subtract the
power of two when the bit is set, which is the same operation. -/
def SpaceBitmask.mask_unset (m : SpaceBitmask) (space_id : Nat) (by_rule : Bool) : SpaceBitmask :=
  { space_mask :=
      m.space_mask - (if m.space_mask.testBit space_id then 1 <<< space_id else 0),
    by_rule_mask := if by_rule then m.by_rule_mask ||| (1 <<< space_id) else m.by_rule_mask }

/-- `SpaceBitmask.is_space_set`. -/
def SpaceBitmask.is_space_set (m : SpaceBitmask) (space_id : Nat) : Bool :=
  (m.space_mask &&& (1 <<< space_id)) != 0

/-- `SpaceBitmask.was_set_by_rule`. -/
def SpaceBitmask.was_set_by_rule (m : SpaceBitmask) (space_id : Nat) : Bool :=
  (m.by_rule_mask &&& (1 <<< space_id)) != 0

/-! ### Tree entries (`treelib` node + `Node` data) -/

/-- One `treelib` tree node together with its `Node` data object.  The node
identifier is its `path` (see the `Mystable.Digest` layer for why the digest
identifiers are observationally exactly a path-keyed map); `tag` and `parent`
are the `treelib` tag and parent pointer. -/
structure TEntry where
  tag : Path
  parent : Option Path
  path : Path
  positive_mask : SpaceBitmask
  negative_mask : SpaceBitmask
  created_by_rule : Bool
deriving DecidableEq, Repr

/-- `Node.spaces_mask_test`: positive and not negative. -/
def TEntry.spaces_mask_test (e : TEntry) (space_id : Nat) : Bool :=
  e.positive_mask.is_space_set space_id && !(e.negative_mask.is_space_set space_id)

/-- `Node.spaces_mask_set`. -/
def TEntry.spaces_mask_set (e : TEntry) (space_id : Nat) (by_rule : Bool) : TEntry :=
  { e with positive_mask := e.positive_mask.mask_set space_id by_rule }

/-- `Node.spaces_mask_unset`: records the exclusion in the negative mask. -/
def TEntry.spaces_mask_unset (e : TEntry) (space_id : Nat) (by_rule : Bool) : TEntry :=
  { e with negative_mask := e.negative_mask.mask_set space_id by_rule }

/-- `Node.was_added_by_rule`. -/
def TEntry.was_added_by_rule (e : TEntry) (space_id : Nat) : Bool :=
  if e.negative_mask.is_space_set space_id then e.negative_mask.was_set_by_rule space_id
  else e.positive_mask.was_set_by_rule space_id

/-- The tree: entries in `treelib` insertion order (new nodes are appended). -/
abbrev Tree := List TEntry

/-- Look up the tree node whose identifier (path) is `p`. -/
def lookupPath (t : Tree) (p : Path) : Option TEntry :=
  t.find? (fun e => e.path == p)

/-- Mutate the tree node whose identifier is `p` in place. -/
def updatePath (t : Tree) (p : Path) (f : TEntry → TEntry) : Tree :=
  t.map (fun e => if e.path == p then f e else e)

/-- `treelib.Tree.children`, in insertion order. -/
def childrenOf (t : Tree) (p : Path) : List TEntry :=
  t.filter (fun e => e.parent == some p)

/-- `_find_recursive_node`: first node in the list tagged `.*`. -/
def find_recursive_node (nodes : List TEntry) : Option TEntry :=
  nodes.find? (fun e => e.tag == recursive_regex)

/-! ### `VirtualSpace` and the `NameSpace` state -/

/-- `VirtualSpace`.  `nodes` is a Python `set`; it is modelled as a
duplicate-free list (its only uses — iteration to set mask bits, membership
removal — are insensitive to ordering). -/
structure VSpace where
  name : Path
  index : Nat
  nodes : List Path
  nodes_add : List Path
  nodes_sub : List Path
  subspaces_add : List Path
  subspaces_sub : List Path
deriving DecidableEq, Repr

/-- Python `set.update`: insert each path not already present. -/
def setUpdate (s : List Path) (paths : List Path) : List Path :=
  paths.foldl (fun s p => if s.contains p then s else s ++ [p]) s

/-- Python `set.difference_update`: drop every listed path. -/
def setDiffUpdate (s : List Path) (paths : List Path) : List Path :=
  s.filter (fun p => !(paths.contains p))

/-- `Node.active_spaces` for a tree entry: all spaces (in `Node.vs` order)
whose effective membership test is true. -/
def active_spaces (vs : List VSpace) (e : TEntry) : List Nat :=
  (vs.filter (fun v => e.spaces_mask_test v.index)).map (fun v => v.index)

/-- The `NameSpace` instance state. -/
structure NS where
  counter : Nat
  name_index_map : List (Path × Nat)
  tree : Tree
  vs : List VSpace
  processing_rules : Bool
deriving DecidableEq, Repr

/-- `NameSpace.__init__`. -/
def NS.init : NS := ⟨0, [], [], [], true⟩

/-- Index lookup in `name_index_map`. -/
def lookupName (m : List (Path × Nat)) (n : Path) : Option Nat :=
  match m.find? (fun kv => kv.1 == n) with
  | some kv => some kv.2
  | none => none

/-- `NameSpace.space` with `create=True`. -/
def NS.spaceCreate (st : NS) (name : Path) : Nat × NS :=
  match lookupName st.name_index_map name with
  | some i => (i, st)
  | none =>
      (st.counter,
       { st with
           counter := st.counter + 1,
           name_index_map := st.name_index_map ++ [(name, st.counter)],
           vs := st.vs ++ [⟨name, st.counter, [], [], [], [], []⟩] })

/-- Mutate the `VirtualSpace` with index `i` in place. -/
def NS.updateVS (st : NS) (i : Nat) (f : VSpace → VSpace) : NS :=
  { st with vs := st.vs.map (fun v => if v.index == i then f v else v) }

/-! ### `NameSpace._node_for_path` over the path-keyed tree -/

/-- One iteration of the creation loop of `_node_for_path`: resolve or create
the child of the parent resolved so far (the first component always maps to
the root path `""`). -/
def walkStep (acc : Option Path × Tree) (comp : Path) : Option Path × Tree :=
  let child : Path :=
    match acc.1 with
    | none => []
    | some pp => pp ++ '/' :: comp
  match lookupPath acc.2 child with
  | some _ => (some child, acc.2)
  | none =>
      (some child,
       acc.2 ++ [⟨comp, acc.1, child, SpaceBitmask.init, SpaceBitmask.init, false⟩])

/-- The creation loop of `_node_for_path` over the `'/'`-separated
components.  Returns the identifier of the last resolved node and the
extended tree. -/
def walkPath (t0 : Tree) (comps : List Path) : Option Path × Tree :=
  comps.foldl walkStep (none, t0)

/-- The identifier the walk computes for a component list, independent of the
tree (the pure part of `walkStep`). -/
def chainStep (acc : Option Path) (comp : Path) : Option Path :=
  match acc with
  | none => some []
  | some pp => some (pp ++ '/' :: comp)

/-- `NameSpace._node_for_path`: resolve `p` (creating missing nodes), then
mark `created_by_rule` when this is a creation during rule processing.
Returns the identifier of the resolved node and the updated tree. -/
def node_for_path (t : Tree) (p : Path) (is_creation : Bool) (pr : Bool) : Path × Tree :=
  let r : Path × Tree :=
    match lookupPath t p with
    | some _ => (p, t)
    | none =>
        match walkPath t (splitSlash p) with
        | (some fp, t') => (fp, t')
        | (none, t') => (p, t')
  if is_creation && pr then
    (r.1, updatePath r.2 r.1 (fun e => { e with created_by_rule := true }))
  else r

/-! ### Public enqueue / query operations -/

/-- One iteration of the loop in `NameSpace.space_add`.  An empty rule makes
Python's `pth[0]` raise `IndexError`; `interpret_add_rule` may raise from
validation.  On an exception the state mutated so far is kept. -/
def NS.space_add_one (st : NS) (sid : Nat) (pth : Path) : Option RuleErr × NS :=
  match pth with
  | [] => (some RuleErr.indexError, st)
  | c :: _ =>
      if c = '/' || isPref recursive_pref pth then
        match interpret_add_rule pth with
        | Except.error e => (some e, st)
        | Except.ok r =>
            (none,
             st.updateVS sid (fun v =>
               { v with nodes_add := v.nodes_add ++ r.1, nodes_sub := v.nodes_sub ++ r.2 }))
      else (none, st.updateVS sid (fun v => { v with subspaces_add := v.subspaces_add ++ [pth] }))

/-- The loop of `NameSpace.space_add`: stop at the first raising rule,
keeping the rules queued before it. -/
def NS.spaceAddLoop (sid : Nat) : NS → List Path → Option RuleErr × NS
  | st, [] => (none, st)
  | st, p :: ps =>
      match NS.space_add_one st sid p with
      | (some e, st') => (some e, st')
      | (none, st') => NS.spaceAddLoop sid st' ps

/-- `NameSpace.space_add`. -/
def NS.space_add (st : NS) (s_name : Path) (paths : List Path) : Option RuleErr × NS :=
  let r := st.spaceCreate s_name
  NS.spaceAddLoop r.1 r.2 paths

/-- The loop of `NameSpace.space_sub` (sub rules are not interpreted). -/
def NS.spaceSubLoop (sid : Nat) : NS → List Path → Option RuleErr × NS
  | st, [] => (none, st)
  | st, p :: ps =>
      match p with
      | [] => (some RuleErr.indexError, st)
      | c :: _ =>
          let st' :=
            if c ≠ '/' then
              st.updateVS sid (fun v => { v with subspaces_sub := v.subspaces_sub ++ [p] })
            else st.updateVS sid (fun v => { v with nodes_sub := v.nodes_sub ++ [p] })
          NS.spaceSubLoop sid st' ps

/-- `NameSpace.space_sub`. -/
def NS.space_sub (st : NS) (s_name : Path) (paths : List Path) : Option RuleErr × NS :=
  let r := st.spaceCreate s_name
  NS.spaceSubLoop r.1 r.2 paths

/-- The short-circuiting `all(...)` of `NameSpace.space_test`: resolve each
path in turn (materializing missing nodes) and stop at the first failing
membership test. -/
def NS.testLoop (sid : Nat) : NS → List Path → Bool × NS
  | st, [] => (true, st)
  | st, p :: ps =>
      let r := node_for_path st.tree p false st.processing_rules
      let st' := { st with tree := r.2 }
      match lookupPath r.2 r.1 with
      | some e => if e.spaces_mask_test sid then NS.testLoop sid st' ps else (false, st')
      | none => (false, st')

/-- `NameSpace.space_test`. -/
def NS.space_test (st : NS) (s_name : Path) (paths : List Path) : Bool × NS :=
  let r := st.spaceCreate s_name
  NS.testLoop r.1 r.2 paths

/-! ### The realizing operations and the update scheduler -/

/-- Activate one path for one space (the loop body of `_space_add_real`):
resolve the node, creating it if needed, and set the positive bit, with the
current `processing_rules` flag as provenance. -/
def addRealStep (sid : Nat) (st : NS) (p : Path) : NS :=
  let w := node_for_path st.tree p true st.processing_rules
  { st with tree := updatePath w.2 w.1 (fun e => e.spaces_mask_set sid st.processing_rules) }

/-- Deactivate one path for one space (the loop body of `_space_sub_real`):
resolve the node, creating it if needed, and set the negative bit. -/
def subRealStep (sid : Nat) (st : NS) (p : Path) : NS :=
  let w := node_for_path st.tree p true st.processing_rules
  { st with tree := updatePath w.2 w.1 (fun e => e.spaces_mask_unset sid st.processing_rules) }

/-- `NameSpace._space_add_real`. -/
def NS.space_add_real (st : NS) (s_name : Path) (paths : List Path) : NS :=
  let r := st.spaceCreate s_name
  let sid := r.1
  let st1 := r.2.updateVS sid (fun v => { v with nodes := setUpdate v.nodes paths })
  paths.foldl (addRealStep sid) st1

/-- `NameSpace._space_sub_real`. -/
def NS.space_sub_real (st : NS) (s_name : Path) (paths : List Path) : NS :=
  let r := st.spaceCreate s_name
  let sid := r.1
  let st1 := r.2.updateVS sid (fun v => { v with nodes := setDiffUpdate v.nodes paths })
  paths.foldl (subRealStep sid) st1

/-- Register a node id in `graphlib`'s first-touch order. -/
def regTouch (l : List Nat) (n : Nat) : List Nat :=
  if l.contains n then l else l ++ [n]

/-- Predecessor lists keyed by node id. -/
def predsOf (pm : List (Nat × List Nat)) (n : Nat) : List Nat :=
  match pm.find? (fun kv => kv.1 == n) with
  | some kv => kv.2
  | none => []

/-- Accumulate predecessors for a node (`TopologicalSorter.add`). -/
def addPreds (pm : List (Nat × List Nat)) (n : Nat) (ps : List Nat) : List (Nat × List Nat) :=
  if (pm.find? (fun kv => kv.1 == n)).isSome then
    pm.map (fun kv => if kv.1 == n then (kv.1, kv.2 ++ ps) else kv)
  else pm ++ [(n, ps)]

/-- Kahn iteration emitting, per round, every not-yet-done node whose
predecessors are all done, in registration order (CPython's
`TopologicalSorter.static_order` batches).  `none` when no progress is
possible while nodes remain: a cycle. -/
def kahn (reg : List Nat) (pm : List (Nat × List Nat)) : Nat → List Nat → Option (List Nat)
  | 0, _ => none
  | f + 1, done =>
      if reg.all (fun n => done.contains n) then some done
      else
        let ready := reg.filter
          (fun n => !(done.contains n) && (predsOf pm n).all (fun q => done.contains q))
        if ready.isEmpty then none
        else kahn reg pm f (done ++ ready)

/-- `NameSpace._build_topo`: dependency graph from the pending subspace
references (unknown names are skipped with a diagnostic), then topological
order; `none` models `graphlib.CycleError`. -/
def build_topo (st : NS) : Option (List Nat) :=
  let acc := st.vs.foldl
    (fun (acc : List Nat × List (Nat × List Nat)) v =>
      let predIds := (v.subspaces_add ++ v.subspaces_sub).filterMap
        (fun n => lookupName st.name_index_map n)
      let reg := predIds.foldl regTouch (regTouch acc.1 v.index)
      (reg, addPreds acc.2 v.index predIds))
    ([], [])
  kahn acc.1 acc.2 (acc.1.length + 1) []

/-- One referenced add-subspace of `_space_update_internal`: apply that
subspace's already-realized member set to the current space (unknown names
are skipped with a diagnostic). -/
def inheritAdd (nm : Path) (st : NS) (sub : Path) : NS :=
  match lookupName st.name_index_map sub with
  | some subId =>
      match st.vs[subId]? with
      | some sv => st.space_add_real nm sv.nodes
      | none => st
  | none => st

/-- One referenced sub-subspace of `_space_update_internal`. -/
def inheritSub (nm : Path) (st : NS) (sub : Path) : NS :=
  match lookupName st.name_index_map sub with
  | some subId =>
      match st.vs[subId]? with
      | some sv => st.space_sub_real nm sv.nodes
      | none => st
  | none => st

/-- The per-space body of `NameSpace._space_update_internal`: realize queued
literal adds, then each add-subspace's realized set, clear the add lists;
then the same for subs. -/
def NS.applySpace (st : NS) (sid : Nat) : NS :=
  match st.vs[sid]? with
  | none => st
  | some sp =>
      let st := st.space_add_real sp.name sp.nodes_add
      let st := sp.subspaces_add.foldl (inheritAdd sp.name) st
      let st := st.updateVS sid (fun v => { v with subspaces_add := [], nodes_add := [] })
      let st := st.space_sub_real sp.name sp.nodes_sub
      let st := sp.subspaces_sub.foldl (inheritSub sp.name) st
      st.updateVS sid (fun v => { v with subspaces_sub := [], nodes_sub := [] })

/-- `NameSpace._space_update_internal`: abort with no mutation on a cycle,
otherwise apply every space in topological order. -/
def NS.space_update_internal (st : NS) : NS :=
  match build_topo st with
  | none => st
  | some order => order.foldl NS.applySpace st

/-! ### `NameSpace._process_regex_nodes` -/

/-- Lexicographic `<` on Python strings (used by `treelib`'s sibling sort,
which compares node tags). -/
def lexLt : Path → Path → Bool
  | [], [] => false
  | [], _ :: _ => true
  | _ :: _, [] => false
  | a :: as_, b :: bs => if a = b then lexLt as_ bs else decide (a < b)

/-- Insert an entry into a tag-sorted list (stable insertion sort step). -/
def insSorted (e : TEntry) : List TEntry → List TEntry
  | [] => [e]
  | f :: fs => if lexLt e.tag f.tag then e :: f :: fs else f :: insSorted e fs

/-- Sort entries by tag, as `expand_tree(sorting=True)` does. -/
def sortByTag (l : List TEntry) : List TEntry := l.foldr insSorted []

/-- `treelib.Tree.expand_tree(mode=DEPTH, sorting=True)` restricted by the
filter `tag != '.*'` (which prunes a matching node together with its whole
subtree), on a snapshot of the tree: depth-first, siblings in tag order.
Nodes added during the traversal are always tagged `.*`, so the lazily
consumed Python generator yields exactly this snapshot list. -/
def dfsExpand (t : Tree) : Nat → List TEntry → List Path
  | 0, _ => []
  | f + 1, queue =>
      match queue with
      | [] => []
      | e :: rest =>
          let kids := sortByTag ((childrenOf t e.path).filter
            (fun c => c.tag != recursive_regex))
          e.path :: dfsExpand t f (kids ++ rest)

/-- The `added_nodes` defaultdict of `_process_regex_nodes`. -/
def addedLookup (m : List (Path × List Nat)) (p : Path) : List Nat :=
  match m.find? (fun kv => kv.1 == p) with
  | some kv => kv.2
  | none => []

/-- Append a space id under a key of the `added_nodes` defaultdict. -/
def addedAppend (m : List (Path × List Nat)) (p : Path) (i : Nat) : List (Path × List Nat) :=
  if (m.find? (fun kv => kv.1 == p)).isSome then
    m.map (fun kv => if kv.1 == p then (kv.1, kv.2 ++ [i]) else kv)
  else m ++ [(p, [i])]

/-- `NameSpace._recursive_spaces`: the spaces of the visited node's `.*`
sibling (if any) plus the ids queued for the parent's `.*` path during this
pass. -/
def recSpacesOf (st : NS) (added : List (Path × List Nat)) (e : TEntry) : List Nat :=
  let sibs :=
    match e.parent with
    | some pp => (childrenOf st.tree pp).filter (fun s => s.path != e.path)
    | none => []
  let base :=
    match find_recursive_node sibs with
    | some sib => active_spaces st.vs sib
    | none => []
  base ++ addedLookup added (osJoin (osSplitHead e.path) recursive_regex)

/-- The body of the traversal loop in `_process_regex_nodes`, for one
visited node. -/
def regexStep (acc : NS × List (Path × List Nat)) (v : Path) : NS × List (Path × List Nat) :=
  let st := acc.1
  let added := acc.2
  match lookupPath st.tree v with
  | none => acc
  | some e =>
      if (find_recursive_node (childrenOf st.tree v)).isSome then acc
      else if v = ([] : Path) then
        let w := node_for_path st.tree (osJoin v recursive_regex) true st.processing_rules
        ({ st with tree := w.2 }, added)
      else
        let recPath := osJoin v recursive_regex
        let specs := recSpacesOf st added e
        if specs = [] then
          let w := node_for_path st.tree recPath true st.processing_rules
          ({ st with tree := w.2 }, added)
        else
          specs.foldl
            (fun acc i =>
              (acc.1.updateVS i (fun sp => { sp with nodes_add := sp.nodes_add ++ [recPath] }),
               addedAppend acc.2 recPath i))
            (st, added)

/-- `NameSpace._process_regex_nodes` (identity on an empty tree, where
Python's `expand_tree` raises instead; no theorem relies on that case). -/
def NS.process_regex_nodes (st : NS) : NS :=
  match lookupPath st.tree ([] : Path) with
  | none => st
  | some rootE =>
      let visits := dfsExpand st.tree (st.tree.length + 2) [rootE]
      (visits.foldl regexStep (st, [])).1

/-- `NameSpace.space_update`: internal update, switch off rule processing,
inheritance pass, second internal update. -/
def NS.space_update (st : NS) : NS :=
  let st1 := st.space_update_internal
  let st2 := { st1 with processing_rules := false }
  let st3 := st2.process_regex_nodes
  st3.space_update_internal

/-! ### Whole-program operation sequences -/

/-- One public operation on a `NameSpace` instance. -/
inductive Op
  | add (name : Path) (paths : List Path)
  | sub (name : Path) (paths : List Path)
  | test (name : Path) (paths : List Path)
  | update
deriving DecidableEq, Repr

/-- Execute one operation (raised rule errors leave the partially mutated
state, as the Python exception does). -/
def NS.step (st : NS) : Op → NS
  | Op.add n ps => (st.space_add n ps).2
  | Op.sub n ps => (st.space_sub n ps).2
  | Op.test n ps => (st.space_test n ps).2
  | Op.update => st.space_update

/-- Execute a sequence of operations. -/
def NS.run (st : NS) (ops : List Op) : NS := ops.foldl NS.step st

/-! ### The digest layer: `_unique_digest` / `_node_for_path` verbatim

This layer embeds the identifier machinery exactly as written: tree nodes
are keyed by a digest, the digest of a path is computed by hashing the
utf-8 encoding and truncating, and collisions rehash the previous digest.
The byte-level hash (`hashlib.md5(...).digest()`) and the string encoding
are parameters `g` and `enc`; `L` is `PATH_DIGEST_LEN`.  The loops take
fuel; theorems quantify over runs in which the fuel sufficed. -/

namespace Digest

/-- A `treelib` node of the digest-keyed tree: tag, parent identifier and
the stored `Node.path` (the membership masks play no role at this layer). -/
structure ANode where
  tag : Path
  parentDigest : Option (List Nat)
  path : Path
deriving DecidableEq, Repr

/-- The digest-keyed node store. -/
abbrev DTree := List (List Nat × ANode)

/-- `treelib.Tree.get_node` by identifier. -/
def lookupD (t : DTree) (d : List Nat) : Option ANode :=
  match t.find? (fun kv => kv.1 == d) with
  | some kv => some kv.2
  | none => none

/-- `NameSpace._unique_digest`: rehash (`g`) and truncate (`take L`) until
the slot is empty or holds the exact path.  `cur` is the byte string fed to
the hasher next (initially the encoded path).  Returns the digest and the
node found there (`none` when the slot is free). -/
def unique_digest (g : List Nat → List Nat) (L : Nat) (p : Path) :
    Nat → DTree → List Nat → Option (List Nat × Option ANode)
  | 0, _, _ => none
  | f + 1, t, cur =>
      let d := (g cur).take L
      match lookupD t d with
      | none => some (d, none)
      | some n => if n.path = p then some (d, some n) else unique_digest g L p f t d

/-- The creation loop of `_node_for_path` at the digest layer: resolve or
create each progressively longer prefix, threading the parent path and the
parent digest.  Returns the digest, node and tree of the last component. -/
def walkD (g : List Nat → List Nat) (enc : Path → List Nat) (L fuel : Nat) :
    DTree → Option Path → Option (List Nat) → List Path →
    Option (List Nat × ANode × DTree)
  | _, _, _, [] => none
  | t, parentPth, parentDig, comp :: rest =>
      let child : Path :=
        match parentPth with
        | none => []
        | some pp => pp ++ '/' :: comp
      match unique_digest g L child fuel t (enc child) with
      | none => none
      | some (d, some n) =>
          match rest with
          | [] => some (d, n, t)
          | _ :: _ => walkD g enc L fuel t (some child) (some d) rest
      | some (d, none) =>
          let n : ANode := ⟨comp, parentDig, child⟩
          let t' := t ++ [(d, n)]
          match rest with
          | [] => some (d, n, t')
          | _ :: _ => walkD g enc L fuel t' (some child) (some d) rest

/-- `NameSpace._node_for_path` at the digest layer (the `created_by_rule`
marking is carried by the path-keyed layer; it does not touch identifiers). -/
def node_for_path (g : List Nat → List Nat) (enc : Path → List Nat) (L fuel : Nat)
    (t : DTree) (p : Path) : Option (List Nat × ANode × DTree) :=
  match unique_digest g L p fuel t (enc p) with
  | none => none
  | some (d, some n) => some (d, n, t)
  | some (_, none) => walkD g enc L fuel t none none (splitSlash p)

/-- Well-formedness of a digest tree: every stored node is found, at its own
digest, by `_unique_digest` on its own path.  This holds for every tree the
code can build (nodes are only created at the digest `_unique_digest` chose)
and in particular for the empty tree. -/
def WF (g : List Nat → List Nat) (enc : Path → List Nat) (L : Nat) (t : DTree) : Prop :=
  ∀ d n, (d, n) ∈ t → ∃ f, unique_digest g L n.path f t (enc n.path) = some (d, some n)

/-- A path the walk of `_node_for_path` reconstructs exactly: the empty
(root) path or an absolute path. -/
def absOk (p : Path) : Prop := p = [] ∨ ∃ q, p = '/' :: q

end Digest

/-! ### Relations used by the frame and invariant theorems -/

/-- Exact preservation of tree entries: whatever `lookupPath` finds before,
it finds unchanged afterwards (new entries may appear). -/
def TreeExt (t t' : Tree) : Prop :=
  ∀ p e, lookupPath t p = some e → lookupPath t' p = some e

/-- Preservation of every entry's identity and membership masks (the
`created_by_rule` display flag may change). -/
def MaskExt (t t' : Tree) : Prop :=
  ∀ p e, lookupPath t p = some e →
    ∃ e', lookupPath t' p = some e' ∧ e'.tag = e.tag ∧ e'.parent = e.parent ∧
      e'.path = e.path ∧ e'.positive_mask = e.positive_mask ∧
      e'.negative_mask = e.negative_mask

/-- Monotone preservation of negative-mask bits: every entry stays resolvable
and keeps every negative bit it had. -/
def NegExt (t t' : Tree) : Prop :=
  ∀ p e, lookupPath t p = some e →
    ∃ e', lookupPath t' p = some e' ∧
      ∀ i, e.negative_mask.is_space_set i = true → e'.negative_mask.is_space_set i = true

/-- What every public operation preserves: space indices already assigned,
and negative mask bits already set. -/
def Keeps (st st' : NS) : Prop :=
  (∀ n i, lookupName st.name_index_map n = some i →
      lookupName st'.name_index_map n = some i) ∧
  NegExt st.tree st'.tree

/-- A namespace that contains exactly one space, with no pending subspace
references (the shape reached by building a single space from scratch). -/
def OneSpace (st : NS) (s : Path) : Prop :=
  st.name_index_map = [(s, 0)] ∧
  ∃ v, st.vs = [v] ∧ v.index = 0 ∧ v.name = s ∧
    v.subspaces_add = [] ∧ v.subspaces_sub = []

/-- No `.*`-tagged node is active in any space: under this invariant the
recursive-inheritance pass queues nothing. -/
def StarInactive (st : NS) : Prop :=
  ∀ e, e ∈ st.tree → e.tag = recursive_regex →
    ∀ v, v ∈ st.vs → e.spaces_mask_test v.index = false

/-- Mask concentration: all membership is the single by-rule positive bit 0
on the entry whose path is `p`; everything else is blank. -/
def MaskConc (p : Path) (t : Tree) : Prop :=
  ∀ e, e ∈ t → e.negative_mask = SpaceBitmask.init ∧
    e.positive_mask = (if e.path = p then SpaceBitmask.mk 1 1 else SpaceBitmask.init)

/-- Every tree entry is the root or carries its tag as the last path
component after a `'/'` (true of every entry `_node_for_path` creates). -/
def TagStruct (t : Tree) : Prop :=
  ∀ e, e ∈ t → e.path = [] ∨ ∃ pp, e.path = pp ++ '/' :: e.tag

/-- The virtual-space lists correspond elementwise with only the `nodes_add`
queue possibly extended (what the inheritance pass may do). -/
def VsAddOnly (vs vs' : List VSpace) : Prop :=
  List.Forall₂
    (fun v v' => v'.index = v.index ∧ v'.name = v.name ∧ v'.nodes = v.nodes ∧
      v'.nodes_sub = v.nodes_sub ∧ v'.subspaces_add = v.subspaces_add ∧
      v'.subspaces_sub = v.subspaces_sub ∧ ∃ ext, v'.nodes_add = v.nodes_add ++ ext)
    vs vs'

/-- What an aborted (cycle) update still guarantees: all existing entries
keep their identity and masks, the name map and counter are unchanged, and
the virtual-space lists change only by `nodes_add` extensions. -/
def CyclePres (st st' : NS) : Prop :=
  MaskExt st.tree st'.tree ∧ st'.name_index_map = st.name_index_map ∧
  st'.counter = st.counter ∧ VsAddOnly st.vs st'.vs

/-- The state invariant maintained while committing a single literal rule
`p` for a lone space `s`: counter and name map as created, one virtual space
with empty queues, `p` resolvable, and the tree mask-concentrated on `p`
with structurally tagged entries. -/
def LitInv (s p : Path) (st : NS) : Prop :=
  st.counter = 1 ∧ st.name_index_map = [(s, 0)] ∧
  (∃ v, st.vs = [v] ∧ v.index = 0 ∧ v.name = s ∧ v.nodes_add = [] ∧
    v.nodes_sub = [] ∧ v.subspaces_add = [] ∧ v.subspaces_sub = []) ∧
  MaskConc p st.tree ∧ TagStruct st.tree ∧ (lookupPath st.tree p).isSome = true

/-! ### Concrete scenario states used by the counterexamples and witnesses -/

/-- Cycle scenario: one committed literal space, one probed path `/y`, then
two mutually referencing spaces queued (`s1 → s2 → s1`). -/
def scnC1pre : NS :=
  let st := (NS.init.space_add ("a".toList) [("/x".toList)]).2
  let st := st.space_update
  let st := (st.space_test ("a".toList) [("/y".toList)]).2
  let st := (st.space_add ("s1".toList) [("s2".toList)]).2
  (st.space_add ("s2".toList) [("s1".toList)]).2

/-- The cycle scenario after the aborted `space_update`. -/
def scnC1post : NS := scnC1pre.space_update

/-- Recursive-rule scenario: `space_add('s', 'recursive /a/b')` committed. -/
def scnC2a : NS :=
  ((NS.init.space_add ("s".toList) [("recursive /a/b".toList)]).2).space_update

/-- Add, subtract and re-add the same literal path, then commit once. -/
def scnC4 : NS :=
  let st := (NS.init.space_add ("s".toList) [("/k".toList)]).2
  let st := (st.space_sub ("s".toList) [("/k".toList)]).2
  let st := (st.space_add ("s".toList) [("/k".toList)]).2
  st.space_update

theorem foldl_pres {α : Type _} {β : Type _} (P : α → Prop) (f : α → β → α)
    (h : ∀ a b, P a → P (f a b)) : ∀ (l : List β) (a : α), P a → P (l.foldl f a)
  | [], _, ha => ha
  | b :: l, a, ha => foldl_pres P f h l (f a b) (h a b ha)

/-! ### Bitmask lemmas -/

theorem is_space_set_eq (m : SpaceBitmask) (i : Nat) :
    m.is_space_set i = m.space_mask.testBit i := by
  unfold SpaceBitmask.is_space_set
  rw [Nat.one_shiftLeft, Nat.and_two_pow]
  cases h : m.space_mask.testBit i <;>
    simp [h, Nat.pos_iff_ne_zero.mp (Nat.two_pow_pos i)]

theorem was_set_by_rule_eq (m : SpaceBitmask) (i : Nat) :
    m.was_set_by_rule i = m.by_rule_mask.testBit i := by
  unfold SpaceBitmask.was_set_by_rule
  rw [Nat.one_shiftLeft, Nat.and_two_pow]
  cases h : m.by_rule_mask.testBit i <;>
    simp [h, Nat.pos_iff_ne_zero.mp (Nat.two_pow_pos i)]

theorem is_space_set_mask_set (m : SpaceBitmask) (j : Nat) (b : Bool) (i : Nat) :
    (m.mask_set j b).is_space_set i = (m.is_space_set i || decide (j = i)) := by
  rw [is_space_set_eq, is_space_set_eq]
  unfold SpaceBitmask.mask_set
  simp [Nat.testBit_or, Nat.one_shiftLeft, Nat.testBit_two_pow]

theorem is_space_set_init (i : Nat) : SpaceBitmask.init.is_space_set i = false := by
  rw [is_space_set_eq]; exact Nat.zero_testBit i

/-! ### Tree lookup lemmas -/

theorem lookupPath_append_some {t : Tree} {p : Path} {e : TEntry} (l : Tree)
    (h : lookupPath t p = some e) : lookupPath (t ++ l) p = some e := by
  unfold lookupPath at h ⊢; rw [List.find?_append, h]; rfl

theorem lookupPath_append_none_self {t : Tree} {p : Path} (h : lookupPath t p = none)
    {e : TEntry} (he : e.path = p) : lookupPath (t ++ [e]) p = some e := by
  unfold lookupPath at h ⊢
  rw [List.find?_append, h]
  simp [List.find?, he]

theorem lookupPath_mem {t : Tree} {p : Path} {e : TEntry}
    (h : lookupPath t p = some e) : e ∈ t ∧ e.path = p := by
  unfold lookupPath at h
  refine ⟨List.mem_of_find?_eq_some h, ?_⟩
  have h2 := List.find?_some h
  simpa using h2

theorem lookupPath_updatePath (f : TEntry → TEntry) (hf : ∀ e, (f e).path = e.path)
    (p q : Path) : ∀ (t : Tree), lookupPath (updatePath t p f) q =
      Option.map (fun e => if e.path == p then f e else e) (lookupPath t q)
  | [] => rfl
  | e :: t => by
      have hpath : (if e.path == p then f e else e).path = e.path := by
        by_cases h : (e.path == p) = true <;> simp [h, hf]
      have ih := lookupPath_updatePath f hf p q t
      unfold updatePath lookupPath at ih ⊢
      simp only [List.map_cons, List.find?]
      rw [hpath]
      cases hq : (e.path == q) with
      | false => simpa using ih
      | true => rfl

theorem mem_updatePath {t : Tree} {p : Path} {f : TEntry → TEntry} {e' : TEntry}
    (h : e' ∈ updatePath t p f) :
    ∃ e, e ∈ t ∧ e' = (if e.path == p then f e else e) := by
  unfold updatePath at h
  rcases List.mem_map.mp h with ⟨e, he, hh⟩
  exact ⟨e, he, hh.symm⟩

/-! ### Extension relations -/

theorem treeExt_refl (t : Tree) : TreeExt t t := fun _ _ h => h

theorem treeExt_trans {a b c : Tree} (h1 : TreeExt a b) (h2 : TreeExt b c) :
    TreeExt a c := fun p e h => h2 p _ (h1 p e h)

theorem treeExt_append (t l : Tree) : TreeExt t (t ++ l) :=
  fun _ _ h => lookupPath_append_some l h

theorem maskExt_refl (t : Tree) : MaskExt t t :=
  fun _ e h => ⟨e, h, rfl, rfl, rfl, rfl, rfl⟩

theorem maskExt_trans {a b c : Tree} (h1 : MaskExt a b) (h2 : MaskExt b c) :
    MaskExt a c := by
  intro p e h
  rcases h1 p e h with ⟨e1, he1, h11, h12, h13, h14, h15⟩
  rcases h2 p e1 he1 with ⟨e2, he2, h21, h22, h23, h24, h25⟩
  exact ⟨e2, he2, h21.trans h11, h22.trans h12, h23.trans h13,
    h24.trans h14, h25.trans h15⟩

theorem treeExt_maskExt {a b : Tree} (h : TreeExt a b) : MaskExt a b :=
  fun p e hp => ⟨e, h p e hp, rfl, rfl, rfl, rfl, rfl⟩

theorem negExt_refl (t : Tree) : NegExt t t := fun _ e h => ⟨e, h, fun _ hi => hi⟩

theorem negExt_trans {a b c : Tree} (h1 : NegExt a b) (h2 : NegExt b c) :
    NegExt a c := by
  intro p e h
  rcases h1 p e h with ⟨e1, he1, hm1⟩
  rcases h2 p e1 he1 with ⟨e2, he2, hm2⟩
  exact ⟨e2, he2, fun i hi => hm2 i (hm1 i hi)⟩

theorem maskExt_negExt {a b : Tree} (h : MaskExt a b) : NegExt a b := by
  intro p e hp
  rcases h p e hp with ⟨e', he', _, _, _, _, hneg⟩
  exact ⟨e', he', fun i hi => by rw [hneg]; exact hi⟩

/-! ### walkPath lemmas -/

theorem walk_fold_spec : ∀ (comps : List Path) (a : Option Path) (t : Tree),
    ∃ ext, (comps.foldl walkStep (a, t)).2 = t ++ ext ∧
      ∀ e, e ∈ ext → e.positive_mask = SpaceBitmask.init ∧
        e.negative_mask = SpaceBitmask.init ∧ lookupPath t e.path = none ∧
        (e.path = [] ∨ ∃ pp, e.path = pp ++ '/' :: e.tag) ∧ e.created_by_rule = false
  | [], _, t => ⟨[], by simp, by simp⟩
  | comp :: comps, a, t => by
      simp only [List.foldl_cons]
      unfold walkStep
      set child : Path := (match a with | none => [] | some pp => pp ++ '/' :: comp) with hchild
      cases hl : lookupPath t child with
      | some e0 =>
          simp only [hl]
          exact walk_fold_spec comps (some child) t
      | none =>
          simp only [hl]
          set ne : TEntry := ⟨comp, a, child, SpaceBitmask.init, SpaceBitmask.init, false⟩
          rcases walk_fold_spec comps (some child) (t ++ [ne]) with ⟨ext, hext, hprop⟩
          refine ⟨ne :: ext, by simpa using hext, ?_⟩
          intro e he
          rcases List.mem_cons.mp he with rfl | he'
          · refine ⟨rfl, rfl, hl, ?_, rfl⟩
            cases a with
            | none => exact Or.inl rfl
            | some pp => exact Or.inr ⟨pp, rfl⟩
          · rcases hprop e he' with ⟨h1, h2, h3, h4, h5⟩
            refine ⟨h1, h2, ?_, h4, h5⟩
            cases hq : lookupPath t e.path with
            | none => rfl
            | some ee => rw [lookupPath_append_some [ne] hq] at h3; cases h3

theorem walkPath_treeExt (t : Tree) (comps : List Path) :
    TreeExt t (walkPath t comps).2 := by
  rcases walk_fold_spec comps none t with ⟨ext, hext, _⟩
  unfold walkPath
  rw [hext]
  exact treeExt_append t ext

theorem walk_fold_fst : ∀ (comps : List Path) (a : Option Path) (t : Tree),
    (comps.foldl walkStep (a, t)).1 = comps.foldl chainStep a
  | [], _, _ => rfl
  | comp :: comps, a, t => by
      simp only [List.foldl_cons]
      unfold walkStep chainStep
      cases a with
      | none =>
          cases hl : lookupPath t ([] : Path) with
          | some e0 => simp only [hl]; exact walk_fold_fst comps (some []) t
          | none => simp only [hl]; exact walk_fold_fst comps (some []) _
      | some pp =>
          cases hl : lookupPath t (pp ++ '/' :: comp) with
          | some e0 => simp only [hl]; exact walk_fold_fst comps (some (pp ++ '/' :: comp)) t
          | none => simp only [hl]; exact walk_fold_fst comps (some (pp ++ '/' :: comp)) _

theorem splitSlash_ne_nil : ∀ (l : Path), splitSlash l ≠ []
  | [] => by simp [splitSlash]
  | c :: cs => by
      unfold splitSlash
      by_cases h : c = '/'
      · simp [h]
      · simp only [if_neg h]
        cases hr : splitSlash cs with
        | nil => exact absurd hr (splitSlash_ne_nil cs)
        | cons hh tt => simp

theorem sjoin_splitSlash : ∀ (l : Path), sjoin (splitSlash l) = l
  | [] => rfl
  | c :: cs => by
      unfold splitSlash
      by_cases h : c = '/'
      · simp only [if_pos h]
        have ih := sjoin_splitSlash cs
        cases hr : splitSlash cs with
        | nil => exact absurd hr (splitSlash_ne_nil cs)
        | cons hh tt =>
            rw [hr] at ih
            subst h
            simp [sjoin, ih]
      · simp only [if_neg h]
        have ih := sjoin_splitSlash cs
        cases hr : splitSlash cs with
        | nil => exact absurd hr (splitSlash_ne_nil cs)
        | cons hh tt =>
            rw [hr] at ih
            cases tt with
            | nil => simp [sjoin] at ih ⊢; rw [ih]
            | cons t1 t2 => simp [sjoin] at ih ⊢; exact ih

theorem chain_fold_some : ∀ (cs : List Path) (pp : Path),
    cs.foldl chainStep (some pp) =
      some (pp ++ (if cs = [] then [] else '/' :: sjoin cs))
  | [], pp => by simp
  | c :: cs, pp => by
      simp only [List.foldl_cons, chainStep]
      rw [chain_fold_some cs (pp ++ '/' :: c)]
      cases cs with
      | nil => simp [sjoin]
      | cons c1 c2 => simp [sjoin]

theorem chain_fold_abs (p : Path) (hp : p = [] ∨ ∃ q, p = '/' :: q) :
    (splitSlash p).foldl chainStep none = some p := by
  rcases hp with rfl | ⟨q, rfl⟩
  · rfl
  · show (splitSlash ('/' :: q)).foldl chainStep none = some ('/' :: q)
    have h1 : splitSlash ('/' :: q) = [] :: splitSlash q := by
      simp only [splitSlash]; simp
    rw [h1]
    simp only [List.foldl_cons, chainStep]
    rw [chain_fold_some]
    have h2 := splitSlash_ne_nil q
    simp [h2, sjoin_splitSlash q]

/-! ### node_for_path lemmas -/

theorem node_for_path_fst (t : Tree) (p : Path) (ic pr : Bool)
    (hp : p = [] ∨ ∃ q, p = '/' :: q) : (node_for_path t p ic pr).1 = p := by
  unfold node_for_path
  cases hl : lookupPath t p with
  | some e => cases ic <;> cases pr <;> rfl
  | none =>
      have hfst : (walkPath t (splitSlash p)).1 = some p := by
        unfold walkPath
        rw [walk_fold_fst, chain_fold_abs p hp]
      rcases hw : walkPath t (splitSlash p) with ⟨a, t'⟩
      rw [hw] at hfst
      simp only at hfst
      subst hfst
      cases ic <;> cases pr <;> rfl

theorem node_for_path_maskExt (t : Tree) (p : Path) (ic pr : Bool) :
    MaskExt t (node_for_path t p ic pr).2 := by
  unfold node_for_path
  have hmark : ∀ (t1 : Tree) (fp : Path), MaskExt t1
      (updatePath t1 fp (fun e => { e with created_by_rule := true })) := by
    intro t1 fp q e h
    rw [lookupPath_updatePath (fun e => { e with created_by_rule := true })
      (fun _ => rfl) fp q t1, h]
    by_cases hceq : e.path = fp <;> simp [hceq]
  cases hl : lookupPath t p with
  | some e0 =>
      cases hic : ic && pr with
      | true => simpa using hmark t p
      | false => simpa using maskExt_refl t
  | none =>
      rcases hw : walkPath t (splitSlash p) with ⟨a, t'⟩
      have hext : TreeExt t t' := by
        have := walkPath_treeExt t (splitSlash p)
        rw [hw] at this
        exact this
      cases a with
      | some fp =>
          cases hic : ic && pr with
          | true => exact maskExt_trans (treeExt_maskExt hext) (by simpa using hmark t' fp)
          | false => simpa using treeExt_maskExt hext
      | none =>
          cases hic : ic && pr with
          | true => exact maskExt_trans (treeExt_maskExt hext) (by simpa using hmark t' p)
          | false => simpa using treeExt_maskExt hext

theorem node_for_path_treeExt_no_mark (t : Tree) (p : Path) (pr : Bool) :
    TreeExt t (node_for_path t p false pr).2 := by
  unfold node_for_path
  cases hl : lookupPath t p with
  | some e0 => simpa using treeExt_refl t
  | none =>
      rcases hw : walkPath t (splitSlash p) with ⟨a, t'⟩
      have hext : TreeExt t t' := by
        have := walkPath_treeExt t (splitSlash p)
        rw [hw] at this
        exact this
      cases a <;> simpa using hext

/-! ### Keeps: every operation preserves assigned indices and negative bits -/

theorem keeps_refl (st : NS) : Keeps st st := ⟨fun _ _ h => h, negExt_refl _⟩

theorem keeps_trans {a b c : NS} (h1 : Keeps a b) (h2 : Keeps b c) : Keeps a c :=
  ⟨fun n i h => h2.1 n i (h1.1 n i h), negExt_trans h1.2 h2.2⟩

theorem lookupName_append_some {m : List (Path × Nat)} {n : Path} {i : Nat}
    (l : List (Path × Nat)) (h : lookupName m n = some i) :
    lookupName (m ++ l) n = some i := by
  unfold lookupName at h ⊢
  cases hf : m.find? (fun kv => kv.1 == n) with
  | none => rw [hf] at h; cases h
  | some kv => rw [hf] at h; rw [List.find?_append, hf]; exact h

theorem spaceCreate_found {st : NS} {n : Path} {i : Nat}
    (h : lookupName st.name_index_map n = some i) : st.spaceCreate n = (i, st) := by
  unfold NS.spaceCreate; rw [h]

theorem spaceCreate_tree (st : NS) (n : Path) : ((st.spaceCreate n).2).tree = st.tree := by
  unfold NS.spaceCreate
  cases h : lookupName st.name_index_map n <;> simp

theorem keeps_spaceCreate (st : NS) (n : Path) : Keeps st (st.spaceCreate n).2 := by
  unfold NS.spaceCreate
  cases h : lookupName st.name_index_map n with
  | some i => exact keeps_refl st
  | none =>
      exact ⟨fun n' i' h' => lookupName_append_some _ h', negExt_refl _⟩

theorem keeps_updateVS (st : NS) (i : Nat) (f : VSpace → VSpace) :
    Keeps st (st.updateVS i f) := ⟨fun _ _ h => h, negExt_refl _⟩

theorem negExt_updatePath_maskset (t : Tree) (p : Path) (sid : Nat) (b : Bool) :
    NegExt t (updatePath t p (fun e => e.spaces_mask_set sid b)) := by
  intro q e h
  rw [lookupPath_updatePath (fun e => e.spaces_mask_set sid b) (fun _ => rfl) p q t, h]
  refine ⟨_, rfl, ?_⟩
  intro i hi
  by_cases hceq : e.path = p
  · simpa [hceq, TEntry.spaces_mask_set] using hi
  · simpa [hceq] using hi

theorem negExt_updatePath_maskunset (t : Tree) (p : Path) (sid : Nat) (b : Bool) :
    NegExt t (updatePath t p (fun e => e.spaces_mask_unset sid b)) := by
  intro q e h
  rw [lookupPath_updatePath (fun e => e.spaces_mask_unset sid b) (fun _ => rfl) p q t, h]
  refine ⟨_, rfl, ?_⟩
  intro i hi
  by_cases hceq : e.path = p
  · simp [hceq, TEntry.spaces_mask_unset, is_space_set_mask_set, hi]
  · simpa [hceq] using hi

theorem keeps_addRealStep (sid : Nat) (a : NS) (p : Path) :
    Keeps a (addRealStep sid a p) := by
  refine ⟨fun _ _ hh => hh, ?_⟩
  exact negExt_trans
    (maskExt_negExt (node_for_path_maskExt a.tree p true a.processing_rules))
    (negExt_updatePath_maskset _ _ _ _)

theorem keeps_subRealStep (sid : Nat) (a : NS) (p : Path) :
    Keeps a (subRealStep sid a p) := by
  refine ⟨fun _ _ hh => hh, ?_⟩
  exact negExt_trans
    (maskExt_negExt (node_for_path_maskExt a.tree p true a.processing_rules))
    (negExt_updatePath_maskunset _ _ _ _)

theorem keeps_space_add_real (st : NS) (n : Path) (ps : List Path) :
    Keeps st (st.space_add_real n ps) := by
  unfold NS.space_add_real
  apply foldl_pres (fun st' => Keeps st st')
  · intro a p hk
    exact keeps_trans hk (keeps_addRealStep _ a p)
  · exact keeps_trans (keeps_spaceCreate st n) (keeps_updateVS _ _ _)

theorem keeps_space_sub_real (st : NS) (n : Path) (ps : List Path) :
    Keeps st (st.space_sub_real n ps) := by
  unfold NS.space_sub_real
  apply foldl_pres (fun st' => Keeps st st')
  · intro a p hk
    exact keeps_trans hk (keeps_subRealStep _ a p)
  · exact keeps_trans (keeps_spaceCreate st n) (keeps_updateVS _ _ _)

theorem keeps_inheritAdd (nm : Path) (b : NS) (sub : Path) :
    Keeps b (inheritAdd nm b sub) := by
  unfold inheritAdd
  split
  · split
    · exact keeps_space_add_real _ _ _
    · exact keeps_refl _
  · exact keeps_refl _

theorem keeps_inheritSub (nm : Path) (b : NS) (sub : Path) :
    Keeps b (inheritSub nm b sub) := by
  unfold inheritSub
  split
  · split
    · exact keeps_space_sub_real _ _ _
    · exact keeps_refl _
  · exact keeps_refl _

theorem keeps_inherit_add_fold (st : NS) (nm : Path) (subs : List Path) :
    ∀ (a : NS), Keeps st a → Keeps st (subs.foldl (inheritAdd nm) a) := by
  intro a ha
  apply foldl_pres (fun st' => Keeps st st') _ _ subs a ha
  intro b sub hk
  exact keeps_trans hk (keeps_inheritAdd nm b sub)

theorem keeps_inherit_sub_fold (st : NS) (nm : Path) (subs : List Path) :
    ∀ (a : NS), Keeps st a → Keeps st (subs.foldl (inheritSub nm) a) := by
  intro a ha
  apply foldl_pres (fun st' => Keeps st st') _ _ subs a ha
  intro b sub hk
  exact keeps_trans hk (keeps_inheritSub nm b sub)

theorem keeps_applySpace (st : NS) (sid : Nat) : Keeps st (st.applySpace sid) := by
  unfold NS.applySpace
  split
  · exact keeps_refl st
  · rename_i sp _
    have k1 : Keeps st (st.space_add_real sp.name sp.nodes_add) :=
      keeps_space_add_real st sp.name sp.nodes_add
    have k2 := keeps_inherit_add_fold st sp.name sp.subspaces_add _ k1
    have k3 := keeps_trans k2 (keeps_updateVS _ sid
      (fun v => { v with subspaces_add := [], nodes_add := [] }))
    have k4 := keeps_trans k3 (keeps_space_sub_real _ sp.name sp.nodes_sub)
    have k5 := keeps_inherit_sub_fold st sp.name sp.subspaces_sub _ k4
    exact keeps_trans k5 (keeps_updateVS _ sid
      (fun v => { v with subspaces_sub := [], nodes_sub := [] }))

theorem keeps_space_update_internal (st : NS) : Keeps st st.space_update_internal := by
  unfold NS.space_update_internal
  cases build_topo st with
  | none => exact keeps_refl st
  | some ord =>
      apply foldl_pres (fun st' => Keeps st st') _ _ ord st (keeps_refl st)
      intro a sid hk
      exact keeps_trans hk (keeps_applySpace a sid)

theorem keeps_regexStep (st : NS) (acc : NS × List (Path × List Nat)) (v : Path)
    (hk : Keeps st acc.1) : Keeps st (regexStep acc v).1 := by
  simp only [regexStep]
  split
  · exact hk
  · split
    · exact hk
    · split
      · exact keeps_trans hk ⟨fun _ _ hh => hh,
          maskExt_negExt (node_for_path_maskExt _ _ _ _)⟩
      · split
        · exact keeps_trans hk ⟨fun _ _ hh => hh,
            maskExt_negExt (node_for_path_maskExt _ _ _ _)⟩
        · refine foldl_pres (fun a : NS × List (Path × List Nat) => Keeps st a.1)
            _ ?_ _ _ hk
          intro b i hkb
          exact keeps_trans hkb (keeps_updateVS _ _ _)

theorem keeps_process_regex (st : NS) : Keeps st st.process_regex_nodes := by
  unfold NS.process_regex_nodes
  cases lookupPath st.tree ([] : Path) with
  | none => exact keeps_refl st
  | some rootE =>
      refine foldl_pres (fun acc : NS × List (Path × List Nat) => Keeps st acc.1)
        regexStep ?_ _ (st, []) (keeps_refl st)
      intro a v hk
      exact keeps_regexStep st a v hk

theorem keeps_pr_false (st : NS) : Keeps st { st with processing_rules := false } :=
  ⟨fun _ _ h => h, negExt_refl _⟩

theorem keeps_space_update (st : NS) : Keeps st st.space_update := by
  unfold NS.space_update
  exact keeps_trans (keeps_trans (keeps_trans (keeps_space_update_internal st)
    (keeps_pr_false _)) (keeps_process_regex _)) (keeps_space_update_internal _)

theorem keeps_space_add_one (st : NS) (sid : Nat) (p : Path) :
    Keeps st (NS.space_add_one st sid p).2 := by
  unfold NS.space_add_one
  split
  · exact keeps_refl st
  · split
    · split
      · exact keeps_refl st
      · exact keeps_updateVS _ _ _
    · exact keeps_updateVS _ _ _

theorem keeps_spaceAddLoop (sid : Nat) :
    ∀ (ps : List Path) (st0 st : NS), Keeps st0 st →
      Keeps st0 (NS.spaceAddLoop sid st ps).2
  | [], _, _, h => h
  | p :: ps, st0, st, h => by
      have hone : Keeps st0 (NS.space_add_one st sid p).2 :=
        keeps_trans h (keeps_space_add_one st sid p)
      unfold NS.spaceAddLoop
      rcases hres : NS.space_add_one st sid p with ⟨err, st'⟩
      rw [hres] at hone
      cases err with
      | some e => simpa [hres] using hone
      | none =>
          simp only [hres]
          exact keeps_spaceAddLoop sid ps st0 st' hone

theorem keeps_space_add (st : NS) (n : Path) (ps : List Path) :
    Keeps st (st.space_add n ps).2 := by
  unfold NS.space_add
  exact keeps_spaceAddLoop _ ps st _ (keeps_spaceCreate st n)

theorem keeps_spaceSubLoop (sid : Nat) :
    ∀ (ps : List Path) (st0 st : NS), Keeps st0 st →
      Keeps st0 (NS.spaceSubLoop sid st ps).2
  | [], _, _, h => h
  | p :: ps, st0, st, h => by
      simp only [NS.spaceSubLoop]
      split
      · exact h
      · split
        · exact keeps_spaceSubLoop sid ps st0 _ (keeps_trans h (keeps_updateVS _ _ _))
        · exact keeps_spaceSubLoop sid ps st0 _ (keeps_trans h (keeps_updateVS _ _ _))

theorem keeps_space_sub (st : NS) (n : Path) (ps : List Path) :
    Keeps st (st.space_sub n ps).2 := by
  unfold NS.space_sub
  exact keeps_spaceSubLoop _ ps st _ (keeps_spaceCreate st n)

theorem keeps_testLoop (sid : Nat) :
    ∀ (ps : List Path) (st0 st : NS), Keeps st0 st →
      Keeps st0 (NS.testLoop sid st ps).2
  | [], _, _, h => h
  | p :: ps, st0, st, h => by
      simp only [NS.testLoop]
      have hk : Keeps st0
          { st with tree := (node_for_path st.tree p false st.processing_rules).2 } :=
        keeps_trans h ⟨fun _ _ hh => hh,
          maskExt_negExt (node_for_path_maskExt _ _ _ _)⟩
      split
      · split
        · exact keeps_testLoop sid ps st0 _ hk
        · exact hk
      · exact hk

theorem keeps_space_test (st : NS) (n : Path) (ps : List Path) :
    Keeps st (st.space_test n ps).2 := by
  unfold NS.space_test
  exact keeps_testLoop _ ps st _ (keeps_spaceCreate st n)

theorem keeps_step (st : NS) (op : Op) : Keeps st (st.step op) := by
  cases op with
  | add n ps => exact keeps_space_add st n ps
  | sub n ps => exact keeps_space_sub st n ps
  | test n ps => exact keeps_space_test st n ps
  | update => exact keeps_space_update st

theorem keeps_run (st : NS) (ops : List Op) : Keeps st (st.run ops) := by
  unfold NS.run
  apply foldl_pres (fun st' => Keeps st st') _ _ ops st (keeps_refl st)
  intro a op hk
  exact keeps_trans hk (keeps_step a op)

/-! ### The test of a negatively marked path is false -/

theorem test_false_of_neg (st : NS) (s p : Path) (i : Nat) (e : TEntry)
    (hs : lookupName st.name_index_map s = some i)
    (he : lookupPath st.tree p = some e)
    (hneg : e.negative_mask.is_space_set i = true) :
    (st.space_test s [p]).1 = false := by
  have hmask : e.spaces_mask_test i = false := by
    unfold TEntry.spaces_mask_test
    rw [hneg]
    simp
  unfold NS.space_test
  rw [spaceCreate_found hs]
  simp only [NS.testLoop]
  unfold node_for_path
  simp [he, hmask]

/-! ### Interpreting a literal absolute rule -/

theorem subDoubleAllF_no_star : ∀ (f : Nat) (s : Path), '*' ∉ s → subDoubleAllF f s = s
  | 0, _, _ => rfl
  | _ + 1, [], _ => rfl
  | f + 1, c :: cs, h => by
      have hc : c ≠ '*' := fun hc => h (hc ▸ List.mem_cons_self c cs)
      have hcs : '*' ∉ cs := fun hm => h (List.mem_cons_of_mem c hm)
      cases cs with
      | nil =>
          show c :: subDoubleAllF f [] = [c]
          rw [subDoubleAllF_no_star f [] hcs]
      | cons c2 rest =>
          show (if c = '*' ∧ c2 = '*' ∧ rest ≠ [] ∧ rest ≠ ['/'] then
              '.' :: '*' :: subDoubleAllF f rest
            else c :: subDoubleAllF f (c2 :: rest)) = c :: c2 :: rest
          rw [if_neg (fun hcond => hc hcond.1)]
          rw [subDoubleAllF_no_star f (c2 :: rest) hcs]

theorem subSingleOnceF_no_star :
    ∀ (f : Nat) (rep s : Path), '*' ∉ s → subSingleOnceF rep f s = none
  | 0, _, _, _ => rfl
  | _ + 1, _, [], _ => rfl
  | f + 1, rep, c :: cs, h => by
      have hcs : '*' ∉ cs := fun hm => h (List.mem_cons_of_mem c hm)
      cases cs with
      | nil =>
          show Option.map (fun r => c :: r) (subSingleOnceF rep f []) = none
          rw [subSingleOnceF_no_star f rep [] hcs]
          rfl
      | cons c2 cs2 =>
          cases cs2 with
          | nil =>
              show Option.map (fun r => c :: r) (subSingleOnceF rep f [c2]) = none
              rw [subSingleOnceF_no_star f rep [c2] hcs]
              rfl
          | cons c3 rest =>
              have hc2 : c2 ≠ '*' :=
                fun hc => hcs (hc ▸ List.mem_cons_self c2 (c3 :: rest))
              show (if c = '/' ∧ c2 = '*' ∧ c3 = '/' ∧ rest ≠ [] ∧ rest ≠ ['/'] then
                  some (rep ++ rest)
                else Option.map (fun r => c :: r)
                  (subSingleOnceF rep f (c2 :: c3 :: rest))) = none
              rw [if_neg (fun hcond => hc2 hcond.2.1)]
              rw [subSingleOnceF_no_star f rep (c2 :: c3 :: rest) hcs]
              rfl

theorem proc_single_no_star (f : Nat) (p : Path) (h : '*' ∉ p) :
    proc_single_mid_rec_rule (f + 1) p = [p] := by
  simp only [proc_single_mid_rec_rule, subSingleOnce]
  rw [subSingleOnceF_no_star _ _ _ h]

theorem proc_middle_no_star (p : Path) (h : '*' ∉ p) : proc_middle p = (p, []) := by
  have hsub : subDoubleAll p = p := subDoubleAllF_no_star (p.length + 1) p h
  simp only [proc_middle, hsub]
  rw [proc_single_no_star _ _ h]
  rfl

theorem validate_rule_no_sub {p : Path} (h : findSub recursive_pref p = none) :
    validate_rule p = none := by
  unfold validate_rule splitOnSub
  simp [splitOnSubF, h]

theorem isPref_star_false : ∀ (ps l : Path), '*' ∉ l → isPref ('*' :: ps) l = false
  | _, [], _ => rfl
  | ps, c :: cs, h => by
      have hc : c ≠ '*' := fun hc => h (hc ▸ List.mem_cons_self c cs)
      simp only [isPref]
      have hb : ('*' == c) = false := beq_eq_false_iff_ne.mpr (Ne.symm hc)
      rw [hb]
      rfl

theorem isSuf_single_false (l : Path) (h : '*' ∉ l) : isSuf single_rec_block l = false := by
  show isPref ((['*'] : Path).reverse) l.reverse = false
  have hr : (['*'] : Path).reverse = ['*'] := rfl
  rw [hr]
  exact isPref_star_false [] l.reverse (fun hm => h (List.mem_reverse.mp hm))

theorem isSuf_double_false (l : Path) (h : '*' ∉ l) : isSuf double_rec_block l = false := by
  show isPref ((['*', '*'] : Path).reverse) l.reverse = false
  have hr : (['*', '*'] : Path).reverse = ['*', '*'] := rfl
  rw [hr]
  exact isPref_star_false ['*'] l.reverse (fun hm => h (List.mem_reverse.mp hm))

theorem isPref_rec_pref_false (p₀ : Path) : isPref recursive_pref ('/' :: p₀) = false := by
  simp only [recursive_pref, isPref]
  rw [show ('r' == '/') = false from rfl]
  rfl

theorem proc_ending_one_literal (q : Path) (hstar : '*' ∉ '/' :: q) :
    proc_ending_one ('/' :: q) = ([('/' :: q)], []) := by
  simp [proc_ending_one, isPref_rec_pref_false q, isSuf_double_false ('/' :: q) hstar,
    isSuf_single_false ('/' :: q) hstar]

/-- A wildcard-free absolute rule with no embedded recursive keyword
interprets to exactly itself, queued as a single add rule. -/
theorem interp_literal (p : Path) (hp : ∃ q, p = '/' :: q) (hstar : '*' ∉ p)
    (hrec : findSub recursive_pref p = none) :
    interpret_add_rule p = Except.ok ([p], []) := by
  rcases hp with ⟨q, rfl⟩
  unfold interpret_add_rule
  rw [validate_rule_no_sub hrec]
  rw [proc_middle_no_star _ hstar]
  simp only [proc_ending, List.foldl_cons, List.foldl_nil]
  rw [proc_ending_one_literal q hstar]
  rfl

/-! ### Resolution produces an entry at the returned identifier -/

theorem walk_fold_resolves :
    ∀ (comps : List Path) (a : Option Path) (t : Tree), comps ≠ [] →
      ∃ fp, (comps.foldl walkStep (a, t)).1 = some fp ∧
        ∃ e, lookupPath (comps.foldl walkStep (a, t)).2 fp = some e
  | [], _, _, h => absurd rfl h
  | [comp], a, t, _ => by
      simp only [List.foldl_cons, List.foldl_nil]
      unfold walkStep
      set child : Path := (match a with | none => [] | some pp => pp ++ '/' :: comp)
        with hchild
      cases hl : lookupPath t child with
      | some e =>
          simp only [hl]
          exact ⟨child, rfl, e, hl⟩
      | none =>
          simp only [hl]
          exact ⟨child, rfl, _, lookupPath_append_none_self hl rfl⟩
  | comp :: comp2 :: comps, a, t, _ => by
      rw [List.foldl_cons]
      exact walk_fold_resolves (comp2 :: comps) (walkStep (a, t) comp).1
        (walkStep (a, t) comp).2 (by simp)

theorem node_for_path_resolves (t : Tree) (p : Path) (ic pr : Bool) :
    ∃ e, lookupPath (node_for_path t p ic pr).2 (node_for_path t p ic pr).1 = some e := by
  unfold node_for_path
  have hupd : ∀ (t1 : Tree) (fp : Path) (e : TEntry), lookupPath t1 fp = some e →
      ∃ e', lookupPath (updatePath t1 fp
        (fun e => { e with created_by_rule := true })) fp = some e' := by
    intro t1 fp e he
    rw [lookupPath_updatePath (fun e => { e with created_by_rule := true })
      (fun _ => rfl) fp fp t1, he]
    exact ⟨_, rfl⟩
  cases hl : lookupPath t p with
  | some e =>
      cases hic : ic && pr with
      | true => simpa using hupd t p e hl
      | false => simpa using ⟨e, hl⟩
  | none =>
      have hres := walk_fold_resolves (splitSlash p) none t (splitSlash_ne_nil p)
      rcases hres with ⟨fp, hfp, e, he⟩
      rcases hw : walkPath t (splitSlash p) with ⟨aa, t'⟩
      unfold walkPath at hw
      rw [hw] at hfp he
      simp only at hfp he
      subst hfp
      cases hic : ic && pr with
      | true => simpa using hupd t' fp e he
      | false => simpa using ⟨e, he⟩

/-! ### Single-space namespaces -/

theorem lookupName_single (s : Path) : lookupName [(s, 0)] s = some 0 := by
  simp [lookupName, List.find?]

theorem build_topo_oneSpace {st : NS} {s : Path} (h : OneSpace st s) :
    build_topo st = some [0] := by
  rcases h with ⟨_, v, hvs, hidx, _, hsa, hss⟩
  unfold build_topo
  rw [hvs]
  simp only [List.foldl_cons, List.foldl_nil, hsa, hss, hidx]
  simp [regTouch, addPreds, kahn, predsOf]

theorem applySpace_oneSpace (st : NS) (v : VSpace) (hvs : st.vs = [v])
    (hsa : v.subspaces_add = []) (hss : v.subspaces_sub = []) :
    st.applySpace 0 =
      ((((st.space_add_real v.name v.nodes_add).updateVS 0
          (fun w => { w with subspaces_add := [], nodes_add := [] })).space_sub_real
          v.name v.nodes_sub).updateVS 0
          (fun w => { w with subspaces_sub := [], nodes_sub := [] })) := by
  unfold NS.applySpace
  rw [hvs]
  simp [hsa, hss]

theorem space_add_real_fields (st : NS) (nm : Path) (ps : List Path) (sid : Nat)
    (h : lookupName st.name_index_map nm = some sid) :
    (st.space_add_real nm ps).vs = st.vs.map (fun v => if v.index == sid then
        { v with nodes := setUpdate v.nodes ps } else v) ∧
    (st.space_add_real nm ps).name_index_map = st.name_index_map ∧
    (st.space_add_real nm ps).counter = st.counter ∧
    (st.space_add_real nm ps).processing_rules = st.processing_rules := by
  unfold NS.space_add_real
  rw [spaceCreate_found h]
  refine foldl_pres (fun x : NS =>
      x.vs = st.vs.map (fun v => if v.index == sid then
        { v with nodes := setUpdate v.nodes ps } else v) ∧
      x.name_index_map = st.name_index_map ∧ x.counter = st.counter ∧
      x.processing_rules = st.processing_rules) _ ?_ ps _ ?_
  · intro a p hp
    exact hp
  · exact ⟨rfl, rfl, rfl, rfl⟩

theorem space_sub_real_fields (st : NS) (nm : Path) (ps : List Path) (sid : Nat)
    (h : lookupName st.name_index_map nm = some sid) :
    (st.space_sub_real nm ps).vs = st.vs.map (fun v => if v.index == sid then
        { v with nodes := setDiffUpdate v.nodes ps } else v) ∧
    (st.space_sub_real nm ps).name_index_map = st.name_index_map ∧
    (st.space_sub_real nm ps).counter = st.counter ∧
    (st.space_sub_real nm ps).processing_rules = st.processing_rules := by
  unfold NS.space_sub_real
  rw [spaceCreate_found h]
  refine foldl_pres (fun x : NS =>
      x.vs = st.vs.map (fun v => if v.index == sid then
        { v with nodes := setDiffUpdate v.nodes ps } else v) ∧
      x.name_index_map = st.name_index_map ∧ x.counter = st.counter ∧
      x.processing_rules = st.processing_rules) _ ?_ ps _ ?_
  · intro a p hp
    exact hp
  · exact ⟨rfl, rfl, rfl, rfl⟩

theorem subRealStep_sets (sid : Nat) (st : NS) (p : Path)
    (habs : p = [] ∨ ∃ q, p = '/' :: q) :
    ∃ e, lookupPath (subRealStep sid st p).tree p = some e ∧
      e.negative_mask.is_space_set sid = true := by
  have hfst := node_for_path_fst st.tree p true st.processing_rules habs
  rcases node_for_path_resolves st.tree p true st.processing_rules with ⟨e0, he0⟩
  rw [hfst] at he0
  simp only [subRealStep]
  rw [hfst]
  rw [lookupPath_updatePath (fun e => e.spaces_mask_unset sid st.processing_rules)
    (fun _ => rfl) p p _, he0]
  refine ⟨_, rfl, ?_⟩
  have hpe : e0.path = p := (lookupPath_mem he0).2
  simp [hpe, TEntry.spaces_mask_unset, is_space_set_mask_set]

theorem negExt_fold_subReal (sid : Nat) (ps : List Path) (a : NS) :
    NegExt a.tree ((ps.foldl (subRealStep sid) a)).tree := by
  refine foldl_pres (fun x : NS => NegExt a.tree x.tree) _ ?_ ps a (negExt_refl _)
  intro b p hb
  exact negExt_trans hb ((keeps_subRealStep sid b p).2)

theorem fold_subReal_neg (sid : Nat) (p : Path) (habs : p = [] ∨ ∃ q, p = '/' :: q) :
    ∀ (ps : List Path) (a : NS), p ∈ ps →
      ∃ e, lookupPath ((ps.foldl (subRealStep sid) a)).tree p = some e ∧
        e.negative_mask.is_space_set sid = true
  | [], _, hmem => absurd hmem (List.not_mem_nil p)
  | p' :: ps, a, hmem => by
      rw [List.foldl_cons]
      by_cases hpp : p' = p
      · subst hpp
        rcases subRealStep_sets sid a p' habs with ⟨e, he, hneg⟩
        rcases negExt_fold_subReal sid ps (subRealStep sid a p') p' e he with ⟨e', he', hn⟩
        exact ⟨e', he', hn _ hneg⟩
      · refine fold_subReal_neg sid p habs ps _ ?_
        rcases List.mem_cons.mp hmem with h | h
        · exact absurd h.symm hpp
        · exact h

theorem oneSpace_space_add_real {st : NS} {s : Path} (h : OneSpace st s)
    (ps : List Path) : OneSpace (st.space_add_real s ps) s := by
  rcases h with ⟨hm, v, hvs, hidx, hname, hsa, hss⟩
  have hf := space_add_real_fields st s ps 0 (by rw [hm]; exact lookupName_single s)
  refine ⟨by rw [hf.2.1, hm], { v with nodes := setUpdate v.nodes ps }, ?_,
    hidx, hname, hsa, hss⟩
  rw [hf.1, hvs]
  simp [hidx]

theorem oneSpace_space_sub_real {st : NS} {s : Path} (h : OneSpace st s)
    (ps : List Path) : OneSpace (st.space_sub_real s ps) s := by
  rcases h with ⟨hm, v, hvs, hidx, hname, hsa, hss⟩
  have hf := space_sub_real_fields st s ps 0 (by rw [hm]; exact lookupName_single s)
  refine ⟨by rw [hf.2.1, hm], { v with nodes := setDiffUpdate v.nodes ps }, ?_,
    hidx, hname, hsa, hss⟩
  rw [hf.1, hvs]
  simp [hidx]

theorem oneSpace_updateVS {st : NS} {s : Path} (h : OneSpace st s) (i : Nat)
    (f : VSpace → VSpace) (hidx2 : ∀ w, (f w).index = w.index)
    (hnm : ∀ w, (f w).name = w.name)
    (hsa2 : ∀ w, (f w).subspaces_add = w.subspaces_add ∨ (f w).subspaces_add = [])
    (hss2 : ∀ w, (f w).subspaces_sub = w.subspaces_sub ∨ (f w).subspaces_sub = []) :
    OneSpace (st.updateVS i f) s := by
  rcases h with ⟨hm, v, hvs, hidx, hname, hsa, hss⟩
  refine ⟨hm, (if v.index == i then f v else v), ?_, ?_, ?_, ?_, ?_⟩
  · show (st.updateVS i f).vs = _
    unfold NS.updateVS
    rw [hvs]
    rfl
  · cases hbe : v.index == i <;> simp [hbe, hidx2, hidx]
  · cases hbe : v.index == i <;> simp [hbe, hnm, hname]
  · cases hbe : v.index == i
    · simp [hbe, hsa]
    · rcases hsa2 v with hh | hh <;> simp [hbe, hh, hsa]
  · cases hbe : v.index == i
    · simp [hbe, hss]
    · rcases hss2 v with hh | hh <;> simp [hbe, hh, hss]

theorem oneSpace_internal {st : NS} {s : Path} (h : OneSpace st s) :
    OneSpace st.space_update_internal s := by
  have htopo := build_topo_oneSpace h
  rcases h with ⟨hm, v, hvs, hidx, hname, hsa, hss⟩
  unfold NS.space_update_internal
  rw [htopo]
  show OneSpace (st.applySpace 0) s
  rw [applySpace_oneSpace st v hvs hsa hss, hname]
  have h1 : OneSpace (st.space_add_real s v.nodes_add) s :=
    oneSpace_space_add_real ⟨hm, v, hvs, hidx, hname, hsa, hss⟩ _
  have h2 := oneSpace_updateVS h1 0
    (fun w => { w with subspaces_add := [], nodes_add := [] })
    (fun w => rfl) (fun w => rfl) (fun w => Or.inr rfl) (fun w => Or.inl rfl)
  have h3 := oneSpace_space_sub_real h2 v.nodes_sub
  exact oneSpace_updateVS h3 0
    (fun w => { w with subspaces_sub := [], nodes_sub := [] })
    (fun w => rfl) (fun w => rfl) (fun w => Or.inl rfl) (fun w => Or.inr rfl)

theorem oneSpace_regexStep {s : Path} (acc : NS × List (Path × List Nat)) (v : Path)
    (h : OneSpace acc.1 s) : OneSpace (regexStep acc v).1 s := by
  simp only [regexStep]
  split
  · exact h
  · split
    · exact h
    · split
      · exact h
      · split
        · exact h
        · refine foldl_pres (fun a : NS × List (Path × List Nat) => OneSpace a.1 s)
            _ ?_ _ _ h
          intro b i hb
          exact oneSpace_updateVS hb i _
            (fun w => rfl) (fun w => rfl) (fun w => Or.inl rfl) (fun w => Or.inl rfl)

theorem oneSpace_process_regex {st : NS} {s : Path} (h : OneSpace st s) :
    OneSpace st.process_regex_nodes s := by
  unfold NS.process_regex_nodes
  split
  · exact h
  · refine foldl_pres (fun acc : NS × List (Path × List Nat) => OneSpace acc.1 s)
      regexStep ?_ _ (st, []) h
    intro a v ha
    exact oneSpace_regexStep a v ha

theorem oneSpace_space_update {st : NS} {s : Path} (h : OneSpace st s) :
    OneSpace st.space_update s := by
  unfold NS.space_update
  exact oneSpace_internal (oneSpace_process_regex (oneSpace_internal h))

theorem update_sets_neg {st : NS} {s p : Path} {v : VSpace} (h : OneSpace st s)
    (hvs : st.vs = [v]) (hmem : p ∈ v.nodes_sub) (habs : ∃ q, p = '/' :: q) :
    ∃ e, lookupPath (st.space_update).tree p = some e ∧
      e.negative_mask.is_space_set 0 = true := by
  have htopo := build_topo_oneSpace h
  rcases h with ⟨hm, v', hvs', hidx, hname, hsa, hss⟩
  have hv : v' = v := by
    rw [hvs] at hvs'
    injection hvs' with h1 h2
    exact h1.symm
  subst hv
  have hneg1 : ∃ e, lookupPath (st.space_update_internal).tree p = some e ∧
      e.negative_mask.is_space_set 0 = true := by
    unfold NS.space_update_internal
    rw [htopo]
    show ∃ e, lookupPath ((st.applySpace 0)).tree p = some e ∧
      e.negative_mask.is_space_set 0 = true
    rw [applySpace_oneSpace st v' hvs hsa hss]
    have hmb : (((st.space_add_real v'.name v'.nodes_add)).updateVS 0
        (fun w => { w with subspaces_add := [], nodes_add := [] })).name_index_map =
        [(s, 0)] := by
      have hfd := (space_add_real_fields st v'.name v'.nodes_add 0
        (by rw [hm, hname]; exact lookupName_single s)).2.1
      show ((st.space_add_real v'.name v'.nodes_add)).name_index_map = [(s, 0)]
      rw [hfd, hm]
    have hfound : lookupName (((st.space_add_real v'.name v'.nodes_add)).updateVS 0
        (fun w => { w with subspaces_add := [], nodes_add := [] })).name_index_map
        v'.name = some 0 := by
      rw [hmb, hname]
      exact lookupName_single s
    show ∃ e, lookupPath ((((st.space_add_real v'.name v'.nodes_add).updateVS 0
        (fun w => { w with subspaces_add := [], nodes_add := [] })).space_sub_real
        v'.name v'.nodes_sub).tree) p = some e ∧
      e.negative_mask.is_space_set 0 = true
    unfold NS.space_sub_real
    rw [spaceCreate_found hfound]
    exact fold_subReal_neg 0 p (Or.inr habs) v'.nodes_sub _ hmem
  rcases hneg1 with ⟨e, he, hneg⟩
  have k : Keeps st.space_update_internal
      ((({ st.space_update_internal with
          processing_rules := false }).process_regex_nodes).space_update_internal) :=
    keeps_trans (keeps_trans (keeps_pr_false _) (keeps_process_regex _))
      (keeps_space_update_internal _)
  rcases k.2 p e he with ⟨e', he', hn⟩
  exact ⟨e', he', hn 0 hneg⟩

theorem space_add_single_eq {st : NS} {s : Path} (hm : st.name_index_map = [(s, 0)])
    (p : Path) (adds subs : List Path) (hp : ∃ q, p = '/' :: q)
    (hint : interpret_add_rule p = Except.ok (adds, subs)) :
    st.space_add s [p] = (none, st.updateVS 0 (fun w =>
      { w with nodes_add := w.nodes_add ++ adds, nodes_sub := w.nodes_sub ++ subs })) := by
  unfold NS.space_add
  rw [spaceCreate_found (by rw [hm]; exact lookupName_single s)]
  rcases hp with ⟨q, rfl⟩
  simp [NS.spaceAddLoop, NS.space_add_one, hint]

theorem space_sub_single_eq {st : NS} {s : Path} (hm : st.name_index_map = [(s, 0)])
    (p : Path) (hp : ∃ q, p = '/' :: q) :
    st.space_sub s [p] = (none, st.updateVS 0 (fun w =>
      { w with nodes_sub := w.nodes_sub ++ [p] })) := by
  unfold NS.space_sub
  rw [spaceCreate_found (by rw [hm]; exact lookupName_single s)]
  rcases hp with ⟨q, rfl⟩
  simp [NS.spaceSubLoop]

theorem init_add_eq (s p : Path) (adds subs : List Path) (hp : ∃ q, p = '/' :: q)
    (hint : interpret_add_rule p = Except.ok (adds, subs)) :
    NS.init.space_add s [p] =
      (none, ⟨1, [(s, 0)], [], [⟨s, 0, [], adds, subs, [], []⟩], true⟩) := by
  rcases hp with ⟨q, rfl⟩
  unfold NS.space_add NS.spaceCreate NS.init
  simp [lookupName, NS.spaceAddLoop, NS.space_add_one, hint, NS.updateVS]

theorem subbed_update_test_false {st : NS} {s p : Path} {v : VSpace}
    (h : OneSpace st s) (hvs : st.vs = [v]) (hmem : p ∈ v.nodes_sub)
    (hp : ∃ q, p = '/' :: q) :
    ((st.space_update).space_test s [p]).1 = false := by
  rcases update_sets_neg h hvs hmem hp with ⟨e, he, hne⟩
  have hos := oneSpace_space_update h
  exact test_false_of_neg _ s p 0 e (by rw [hos.1]; exact lookupName_single s) he hne

theorem oneSpace_sub_state {st : NS} {s p : Path} {v : VSpace}
    (hm : st.name_index_map = [(s, 0)]) (hvs : st.vs = [v]) (hidx : v.index = 0)
    (hname : v.name = s) (hsa : v.subspaces_add = []) (hss : v.subspaces_sub = [])
    (hp : ∃ q, p = '/' :: q) :
    OneSpace (st.space_sub s [p]).2 s ∧
      (st.space_sub s [p]).2.vs = [{ v with nodes_sub := v.nodes_sub ++ [p] }] := by
  have hsub := space_sub_single_eq hm p hp
  have hos : OneSpace st s := ⟨hm, v, hvs, hidx, hname, hsa, hss⟩
  constructor
  · rw [hsub]
    exact oneSpace_updateVS hos 0 _ (fun w => rfl) (fun w => rfl)
      (fun w => Or.inl rfl) (fun w => Or.inl rfl)
  · rw [hsub]
    show (st.vs.map _) = _
    rw [hvs]
    simp [hidx]

theorem oneSpace_add_state {st : NS} {s p : Path} {v : VSpace}
    (hm : st.name_index_map = [(s, 0)]) (hvs : st.vs = [v]) (hidx : v.index = 0)
    (hname : v.name = s) (hsa : v.subspaces_add = []) (hss : v.subspaces_sub = [])
    (hp : ∃ q, p = '/' :: q) (hstar : '*' ∉ p)
    (hrec : findSub recursive_pref p = none) :
    OneSpace (st.space_add s [p]).2 s ∧
      (st.space_add s [p]).2.vs =
        [{ v with nodes_add := v.nodes_add ++ [p], nodes_sub := v.nodes_sub ++ [] }] := by
  have hadd := space_add_single_eq hm p [p] [] hp (interp_literal p hp hstar hrec)
  have hos : OneSpace st s := ⟨hm, v, hvs, hidx, hname, hsa, hss⟩
  constructor
  · rw [hadd]
    exact oneSpace_updateVS hos 0 _ (fun w => rfl) (fun w => rfl)
      (fun w => Or.inl rfl) (fun w => Or.inl rfl)
  · rw [hadd]
    show (st.vs.map _) = _
    rw [hvs]
    simp [hidx]

/-- Claim C4 (amended): for every space name `s` and wildcard-free,
non-recursive absolute literal path `p`, subtracting `p` after it was added
and committed makes `space_test(s, p)` false; and the sequence
add(p), sub(p), add(p) followed by `space_update()` also converges to
subtracted — `space_test(s, p)` is false, not true as claimed — because
each internal pass applies all queued adds before all queued subs and the
negative mask bit recorded by the sub is never cleared. -/
theorem claim_C4_thm (s p : Path) (hp : ∃ q, p = '/' :: q) (hstar : '*' ∉ p)
    (hrec : findSub recursive_pref p = none) :
    (((NS.init.space_add s [p]).2.space_update.space_sub s
        [p]).2.space_update.space_test s [p]).1 = false ∧
    ((((NS.init.space_add s [p]).2.space_sub s [p]).2.space_add s
        [p]).2.space_update.space_test s [p]).1 = false := by
  have hint := interp_literal p hp hstar hrec
  have h1eq := init_add_eq s p [p] [] hp hint
  rw [h1eq]
  have hC : OneSpace (⟨1, [(s, 0)], [], [⟨s, 0, [], [p], [], [], []⟩], true⟩ : NS) s :=
    ⟨rfl, ⟨s, 0, [], [p], [], [], []⟩, rfl, rfl, rfl, rfl, rfl⟩
  constructor
  · rcases oneSpace_space_update hC with ⟨hm2, v2, hvs2, hidx2, hname2, hsa2, hss2⟩
    rcases oneSpace_sub_state hm2 hvs2 hidx2 hname2 hsa2 hss2 hp with ⟨hos3, hvs3⟩
    exact subbed_update_test_false hos3 hvs3 (by simp) hp
  · rcases @oneSpace_sub_state (⟨1, [(s, 0)], [], [⟨s, 0, [], [p], [], [], []⟩], true⟩ : NS)
      s p ⟨s, 0, [], [p], [], [], []⟩ rfl rfl rfl rfl rfl rfl hp with ⟨hosB2, hvsB2⟩
    rcases oneSpace_add_state hosB2.1 hvsB2 rfl rfl rfl rfl hp hstar hrec with ⟨hosB3, hvsB3⟩
    exact subbed_update_test_false hosB3 hvsB3 (by simp) hp

/-- Witness for claim C4 at `s = "j"`, `p = "/home"`. -/
theorem claim_C4_witness :
    (∃ q, (("/home".toList) : Path) = '/' :: q) ∧
      ('*' ∉ (("/home".toList) : Path)) ∧
      findSub recursive_pref ("/home".toList) = none ∧
      ((((NS.init.space_add ("j".toList) [("/home".toList)]).2.space_update.space_sub
          ("j".toList) [("/home".toList)]).2.space_update.space_test ("j".toList)
          [("/home".toList)]).1 = false ∧
        ((((NS.init.space_add ("j".toList) [("/home".toList)]).2.space_sub ("j".toList)
          [("/home".toList)]).2.space_add ("j".toList)
          [("/home".toList)]).2.space_update.space_test
          ("j".toList) [("/home".toList)]).1 = false) :=
  ⟨⟨"home".toList, by decide⟩, by decide, by decide,
    claim_C4_thm ("j".toList) ("/home".toList) ⟨"home".toList, by decide⟩
      (by decide) (by decide)⟩

/-! ### Aborted updates: what a cycle still preserves -/

theorem vsAddOnly_refl : ∀ vs : List VSpace, VsAddOnly vs vs
  | [] => List.Forall₂.nil
  | _ :: vs => List.Forall₂.cons
      ⟨rfl, rfl, rfl, rfl, rfl, rfl, [], (List.append_nil _).symm⟩ (vsAddOnly_refl vs)

theorem vsAddOnly_trans : ∀ {a b c : List VSpace},
    VsAddOnly a b → VsAddOnly b c → VsAddOnly a c := by
  intro a b c h1 h2
  induction h1 generalizing c with
  | nil => cases h2; exact List.Forall₂.nil
  | cons hab h1t ih =>
      cases h2 with
      | cons hbc h2t =>
          refine List.Forall₂.cons ?_ (ih h2t)
          obtain ⟨i1, n1, d1, s1, sa1, ss1, e1, he1⟩ := hab
          obtain ⟨i2, n2, d2, s2, sa2, ss2, e2, he2⟩ := hbc
          refine ⟨i2.trans i1, n2.trans n1, d2.trans d1, s2.trans s1, sa2.trans sa1,
            ss2.trans ss1, e1 ++ e2, ?_⟩
          rw [he2, he1, List.append_assoc]

theorem vsAddOnly_map (g : VSpace → VSpace)
    (hg : ∀ v, (g v).index = v.index ∧ (g v).name = v.name ∧ (g v).nodes = v.nodes ∧
      (g v).nodes_sub = v.nodes_sub ∧ (g v).subspaces_add = v.subspaces_add ∧
      (g v).subspaces_sub = v.subspaces_sub ∧ ∃ ext, (g v).nodes_add = v.nodes_add ++ ext) :
    ∀ vs : List VSpace, VsAddOnly vs (vs.map g)
  | [] => List.Forall₂.nil
  | v :: vs => List.Forall₂.cons (hg v) (vsAddOnly_map g hg vs)

theorem cyclePres_refl (st : NS) : CyclePres st st :=
  ⟨maskExt_refl _, rfl, rfl, vsAddOnly_refl _⟩

theorem cyclePres_trans {a b c : NS} (h1 : CyclePres a b) (h2 : CyclePres b c) :
    CyclePres a c :=
  ⟨maskExt_trans h1.1 h2.1, h2.2.1.trans h1.2.1, h2.2.2.1.trans h1.2.2.1,
    vsAddOnly_trans h1.2.2.2 h2.2.2.2⟩

theorem cyclePres_set_tree {a b : NS} (h : CyclePres a b) (t : Tree)
    (ht : MaskExt b.tree t) : CyclePres a { b with tree := t } :=
  ⟨maskExt_trans h.1 ht, h.2.1, h.2.2.1, h.2.2.2⟩

theorem cyclePres_updateVS {a b : NS} (h : CyclePres a b) (i : Nat) (l : List Path) :
    CyclePres a (b.updateVS i (fun sp => { sp with nodes_add := sp.nodes_add ++ l })) := by
  refine cyclePres_trans h ⟨maskExt_refl _, rfl, rfl, ?_⟩
  refine vsAddOnly_map _ ?_ _
  intro v
  cases hbe : v.index == i
  · refine ⟨?_, ?_, ?_, ?_, ?_, ?_, [], ?_⟩ <;> simp [hbe]
  · refine ⟨?_, ?_, ?_, ?_, ?_, ?_, l, ?_⟩ <;> simp [hbe]

theorem cyclePres_regexStep (st : NS) (acc : NS × List (Path × List Nat)) (v : Path)
    (hk : CyclePres st acc.1) : CyclePres st (regexStep acc v).1 := by
  simp only [regexStep]
  split
  · exact hk
  · split
    · exact hk
    · split
      · exact cyclePres_set_tree hk _ (node_for_path_maskExt _ _ _ _)
      · split
        · exact cyclePres_set_tree hk _ (node_for_path_maskExt _ _ _ _)
        · refine foldl_pres (fun a : NS × List (Path × List Nat) => CyclePres st a.1)
            _ ?_ _ _ hk
          intro b i hkb
          exact cyclePres_updateVS hkb i _

theorem cyclePres_process_regex (st : NS) : CyclePres st st.process_regex_nodes := by
  unfold NS.process_regex_nodes
  cases lookupPath st.tree ([] : Path) with
  | none => exact cyclePres_refl st
  | some rootE =>
      refine foldl_pres (fun acc : NS × List (Path × List Nat) => CyclePres st acc.1)
        regexStep ?_ _ (st, []) (cyclePres_refl st)
      intro a v hk
      exact cyclePres_regexStep st a v hk

theorem build_topo_fold_congr (m : List (Path × Nat)) :
    ∀ {vs vs' : List VSpace}, List.Forall₂ (fun v v' => v'.index = v.index ∧
      v'.subspaces_add = v.subspaces_add ∧ v'.subspaces_sub = v.subspaces_sub) vs vs' →
    ∀ acc : List Nat × List (Nat × List Nat),
      vs'.foldl (fun (acc : List Nat × List (Nat × List Nat)) v =>
        let predIds := (v.subspaces_add ++ v.subspaces_sub).filterMap
          (fun n => lookupName m n)
        let reg := predIds.foldl regTouch (regTouch acc.1 v.index)
        (reg, addPreds acc.2 v.index predIds)) acc =
      vs.foldl (fun (acc : List Nat × List (Nat × List Nat)) v =>
        let predIds := (v.subspaces_add ++ v.subspaces_sub).filterMap
          (fun n => lookupName m n)
        let reg := predIds.foldl regTouch (regTouch acc.1 v.index)
        (reg, addPreds acc.2 v.index predIds)) acc := by
  intro vs vs' h
  induction h with
  | nil => intro acc; rfl
  | cons hab htail ih =>
      intro acc
      rcases hab with ⟨h1, h2, h3⟩
      simp only [List.foldl_cons, h1, h2, h3]
      exact ih _

theorem build_topo_congr {st st' : NS} (hm : st'.name_index_map = st.name_index_map)
    (hvs : List.Forall₂ (fun v v' => v'.index = v.index ∧
      v'.subspaces_add = v.subspaces_add ∧ v'.subspaces_sub = v.subspaces_sub)
      st.vs st'.vs) :
    build_topo st' = build_topo st := by
  unfold build_topo
  rw [hm, build_topo_fold_congr st.name_index_map hvs ([], [])]

/-- Claim C1 (amended): a detected cycle aborts both internal passes — every
existing tree entry keeps its tag, parent, path and both masks, the name
map and counter are unchanged — but the recursive-inheritance pass still
runs in between, so the virtual spaces may have their `nodes_add` queues
extended (and the tree may gain `.*` nodes); the pending lists are not all
exactly as declared and the state is not equivalent to the pre-call one. -/
theorem claim_C1_thm (st : NS) (h : build_topo st = none) :
    MaskExt st.tree st.space_update.tree ∧
    st.space_update.name_index_map = st.name_index_map ∧
    st.space_update.counter = st.counter ∧
    VsAddOnly st.vs st.space_update.vs := by
  have hint1 : st.space_update_internal = st := by
    unfold NS.space_update_internal
    rw [h]
  have hcp2 : CyclePres st ({ st with processing_rules := false }) :=
    ⟨maskExt_refl _, rfl, rfl, vsAddOnly_refl _⟩
  have hcp3 : CyclePres st (({ st with processing_rules := false }).process_regex_nodes) :=
    cyclePres_trans hcp2 (cyclePres_process_regex _)
  have htopo3 : build_topo (({ st with
      processing_rules := false }).process_regex_nodes) = none := by
    rw [build_topo_congr hcp3.2.1
      (hcp3.2.2.2.imp (fun a b hr => ⟨hr.1, hr.2.2.2.2.1, hr.2.2.2.2.2.1⟩))]
    exact h
  have hint2 : ((({ st with
      processing_rules := false }).process_regex_nodes)).space_update_internal =
      (({ st with processing_rules := false }).process_regex_nodes) := by
    unfold NS.space_update_internal
    rw [htopo3]
  have hfinal : CyclePres st st.space_update := by
    show CyclePres st
      (((({ st.space_update_internal with
        processing_rules := false })).process_regex_nodes).space_update_internal)
    rw [hint1, hint2]
    exact hcp3
  exact ⟨hfinal.1, hfinal.2.1, hfinal.2.2.1, hfinal.2.2.2⟩

/-- Witness for claim C1 on the concrete cycle scenario. -/
theorem claim_C1_witness :
    build_topo scnC1pre = none ∧
    (MaskExt scnC1pre.tree scnC1pre.space_update.tree ∧
      scnC1pre.space_update.name_index_map = scnC1pre.name_index_map ∧
      scnC1pre.space_update.counter = scnC1pre.counter ∧
      VsAddOnly scnC1pre.vs scnC1pre.space_update.vs) :=
  ⟨by decide, claim_C1_thm scnC1pre (by decide)⟩

/-! ### When does `space_add` raise the `ValueError`? -/

theorem interp_error_validate (p : Path) (e : RuleErr)
    (h : interpret_add_rule p = Except.error e) : validate_rule p = some e := by
  unfold interpret_add_rule at h
  cases hv : validate_rule p with
  | some e2 =>
      rw [hv] at h
      injection h with h1
      rw [h1]
  | none =>
      rw [hv] at h
      cases h

theorem validate_valueError (p : Path) :
    validate_rule p = some RuleErr.valueError ↔
      ∃ first second rest, splitOnSub recursive_pref p = first :: second :: rest ∧
        ∃ c cs, second = c :: cs ∧ c ≠ '/' := by
  simp only [validate_rule]
  rcases hs : splitOnSub recursive_pref p with _ | ⟨first, _ | ⟨second, rest⟩⟩
  · constructor
    · intro h
      exact absurd h (by simp)
    · rintro ⟨f1, s1, r1, heq, _⟩
      cases heq
  · constructor
    · intro h
      exact absurd h (by simp)
    · rintro ⟨f1, s1, r1, heq, _⟩
      injection heq with h1 h2
      cases h2
  · rcases second with _ | ⟨c, cs⟩
    · constructor
      · intro h
        exact absurd h (by simp)
      · rintro ⟨f1, s1, r1, heq, c1, cs1, hsec, hc1⟩
        injection heq with h1 h2
        injection h2 with h3 h4
        rw [← h3] at hsec
        cases hsec
    · by_cases hc : c = '/'
      · subst hc
        constructor
        · intro h
          exact absurd h (by simp)
        · rintro ⟨f1, s1, r1, heq, c1, cs1, hsec, hc1⟩
          injection heq with h1 h2
          injection h2 with h3 h4
          rw [← h3] at hsec
          injection hsec with h5 h6
          exact absurd h5.symm hc1
      · refine ⟨fun _ => ⟨first, c :: cs, rest, rfl, c, cs, rfl, hc⟩, fun _ => ?_⟩
        show (if c = '/' then none else some RuleErr.valueError) = some RuleErr.valueError
        rw [if_neg hc]

theorem space_add_one_valueError (st : NS) (sid : Nat) (p : Path) :
    ((st.space_add_one sid p).1 = some RuleErr.valueError ↔
      (((∃ cs, p = '/' :: cs) ∨ isPref recursive_pref p = true) ∧
        validate_rule p = some RuleErr.valueError)) ∧
    ((st.space_add_one sid p).1 = some RuleErr.valueError →
      (st.space_add_one sid p).2 = st) := by
  rcases p with _ | ⟨c, cs⟩
  · refine ⟨⟨fun h => absurd h (by simp [NS.space_add_one]), fun h => ?_⟩, fun _ => rfl⟩
    rcases h.1 with ⟨cs, hcs⟩ | hpref
    · cases hcs
    · exact absurd hpref (by decide)
  · simp only [NS.space_add_one]
    by_cases hg : (decide (c = '/') || isPref recursive_pref (c :: cs)) = true
    · rw [if_pos hg]
      simp only [Bool.or_eq_true, decide_eq_true_eq] at hg
      have hcases : (∃ ds, (c :: cs : Path) = '/' :: ds) ∨
          isPref recursive_pref (c :: cs) = true := by
        rcases hg with h | h
        · exact Or.inl ⟨cs, by rw [h]⟩
        · exact Or.inr h
      cases hi : interpret_add_rule (c :: cs) with
      | error e =>
          have hv := interp_error_validate _ _ hi
          refine ⟨⟨fun h => ?_, fun h => ?_⟩, fun h => rfl⟩
          · injection h with h1
            exact ⟨hcases, h1 ▸ hv⟩
          · have he : e = RuleErr.valueError := by
              have h2 := hv.symm.trans h.2
              injection h2
            show ((some e : Option RuleErr), st).1 = some RuleErr.valueError
            rw [he]
      | ok r =>
          refine ⟨⟨fun h => absurd h (by simp), fun h => ?_⟩, fun h => absurd h (by simp)⟩
          have hnone : validate_rule (c :: cs) = none := by
            unfold interpret_add_rule at hi
            cases hval : validate_rule (c :: cs) with
            | some e2 =>
                rw [hval] at hi
                cases hi
            | none => rfl
          rw [hnone] at h
          exact absurd h.2 (by simp)
    · rw [if_neg hg]
      refine ⟨⟨fun h => absurd h (by simp), fun h => ?_⟩, fun h => absurd h (by simp)⟩
      apply absurd ?_ hg
      rcases h.1 with ⟨ds, hds⟩ | hh
      · injection hds with h1 h2
        simp [h1]
      · simp [hh]

/-- Claim C7 (amended): `space_add(name, [rule])` raises the `ValueError` if
and only if the rule reaches the interpreter (it starts with `'/'` or with
the `recursive ` keyword prefix) and splitting the rule on the substring
`recursive ` anywhere yields a second part that is nonempty and does not
start with `'/'`; the error is synchronous and the offending rule is not
queued (only the space creation of `space_add` has happened).  A bare
subspace reference merely containing the substring is queued unvalidated,
and an absolute-path rule containing ` recursive ` mid-string does raise. -/
theorem claim_C7_thm (st : NS) (s p : Path) :
    ((st.space_add s [p]).1 = some RuleErr.valueError ↔
      (((∃ cs, p = '/' :: cs) ∨ isPref recursive_pref p = true) ∧
        ∃ first second rest, splitOnSub recursive_pref p = first :: second :: rest ∧
          ∃ c cs, second = c :: cs ∧ c ≠ '/')) ∧
    ((st.space_add s [p]).1 = some RuleErr.valueError →
      (st.space_add s [p]).2 = (st.spaceCreate s).2) := by
  have h1 := space_add_one_valueError (st.spaceCreate s).2 (st.spaceCreate s).1 p
  have heq : st.space_add s [p] =
      ((st.spaceCreate s).2.space_add_one (st.spaceCreate s).1 p) := by
    unfold NS.space_add
    simp only [NS.spaceAddLoop]
    rcases hres : (st.spaceCreate s).2.space_add_one (st.spaceCreate s).1 p with ⟨oe, st2⟩
    cases oe <;> rfl
  rw [heq]
  rw [validate_valueError p] at h1
  exact h1

/-- Witness for claim C7: `recursive etc` (a bare reference with the keyword)
raises the `ValueError` from the initial state. -/
theorem claim_C7_witness :
    ((NS.init.space_add ("s".toList) [("recursive etc".toList)]).1 =
        some RuleErr.valueError ↔
      (((∃ cs, (("recursive etc".toList) : Path) = '/' :: cs) ∨
          isPref recursive_pref ("recursive etc".toList) = true) ∧
        ∃ first second rest, splitOnSub recursive_pref ("recursive etc".toList) =
            first :: second :: rest ∧
          ∃ c cs, second = c :: cs ∧ c ≠ '/')) ∧
    ((NS.init.space_add ("s".toList) [("recursive etc".toList)]).1 =
        some RuleErr.valueError →
      (NS.init.space_add ("s".toList) [("recursive etc".toList)]).2 =
        (NS.init.spaceCreate ("s".toList)).2) :=
  claim_C7_thm NS.init ("s".toList) ("recursive etc".toList)

/-! ### Interpreting a single-interior-wildcard rule -/

theorem tagStruct_updatePath_pres {fp : Path} {f : TEntry → TEntry} {t : Tree}
    (hf : ∀ e, (f e).path = e.path ∧ (f e).tag = e.tag)
    (hT : TagStruct t) : TagStruct (updatePath t fp f) := by
  intro e' he'
  rcases mem_updatePath he' with ⟨e, he, heq⟩
  subst heq
  by_cases hc : (e.path == fp) = true
  · rw [if_pos hc, (hf e).1, (hf e).2]
    exact hT e he
  · rw [if_neg hc]
    exact hT e he

theorem maskConc_updatePath_pres {p fp : Path} {f : TEntry → TEntry} {t : Tree}
    (hf : ∀ e, (f e).path = e.path ∧ (f e).positive_mask = e.positive_mask ∧
      (f e).negative_mask = e.negative_mask)
    (hM : MaskConc p t) : MaskConc p (updatePath t fp f) := by
  intro e' he'
  rcases mem_updatePath he' with ⟨e, he, heq⟩
  subst heq
  rcases hM e he with ⟨h1, h2⟩
  by_cases hc : (e.path == fp) = true
  · rw [if_pos hc]
    refine ⟨(hf e).2.2.trans h1, ?_⟩
    rw [(hf e).2.1, (hf e).1]
    exact h2
  · rw [if_neg hc]
    exact ⟨h1, h2⟩

theorem lookupPath_updatePath_isSome {t : Tree} {fp q : Path} {f : TEntry → TEntry}
    (hf : ∀ e, (f e).path = e.path) (h : (lookupPath t q).isSome = true) :
    (lookupPath (updatePath t fp f) q).isSome = true := by
  rw [lookupPath_updatePath f hf fp q t]
  cases hl : lookupPath t q with
  | none => rw [hl] at h; cases h
  | some e => rfl

theorem tagStruct_append {t ext : Tree} (hT : TagStruct t)
    (hext : ∀ e, e ∈ ext → e.path = [] ∨ ∃ pp, e.path = pp ++ '/' :: e.tag) :
    TagStruct (t ++ ext) := by
  intro e he
  rcases List.mem_append.mp he with h | h
  · exact hT e h
  · exact hext e h

theorem maskConc_append_blank {p : Path} {t ext : Tree} (hM : MaskConc p t)
    (hP : (lookupPath t p).isSome = true)
    (hext : ∀ e, e ∈ ext → e.positive_mask = SpaceBitmask.init ∧
      e.negative_mask = SpaceBitmask.init ∧ lookupPath t e.path = none) :
    MaskConc p (t ++ ext) := by
  intro e he
  rcases List.mem_append.mp he with h | h
  · exact hM e h
  · rcases hext e h with ⟨h1, h2, h3⟩
    have hne : e.path ≠ p := by
      intro hq
      rw [hq] at h3
      rw [h3] at hP
      cases hP
    exact ⟨h2, by rw [h1, if_neg hne]⟩

theorem node_for_path_litTree (t : Tree) (q : Path) (ic pr : Bool) (p : Path)
    (hM : MaskConc p t) (hT : TagStruct t) (hP : (lookupPath t p).isSome = true) :
    MaskConc p (node_for_path t q ic pr).2 ∧ TagStruct (node_for_path t q ic pr).2 ∧
    (lookupPath (node_for_path t q ic pr).2 p).isSome = true := by
  unfold node_for_path
  have hcbr : ∀ (t1 : Tree) (fp : Path),
      MaskConc p t1 → TagStruct t1 → (lookupPath t1 p).isSome = true →
      MaskConc p (updatePath t1 fp (fun e => { e with created_by_rule := true })) ∧
      TagStruct (updatePath t1 fp (fun e => { e with created_by_rule := true })) ∧
      (lookupPath (updatePath t1 fp
        (fun e => { e with created_by_rule := true })) p).isSome = true :=
    fun t1 fp hm ht hp2 =>
      ⟨maskConc_updatePath_pres (fun e => ⟨rfl, rfl, rfl⟩) hm,
       tagStruct_updatePath_pres (fun e => ⟨rfl, rfl⟩) ht,
       lookupPath_updatePath_isSome (fun e => rfl) hp2⟩
  cases hl : lookupPath t q with
  | some e0 =>
      cases hic : ic && pr with
      | true => simpa using hcbr t q hM hT hP
      | false => simpa using ⟨hM, hT, hP⟩
  | none =>
      rcases hw : walkPath t (splitSlash q) with ⟨a, t'⟩
      rcases walk_fold_spec (splitSlash q) none t with ⟨ext, hext2, hprop⟩
      have ht' : t' = t ++ ext := by
        have h2 : (walkPath t (splitSlash q)).2 = t ++ ext := hext2
        rw [hw] at h2
        exact h2
      have hMa : MaskConc p (t ++ ext) := maskConc_append_blank hM hP
        (fun e he => ⟨(hprop e he).1, (hprop e he).2.1, (hprop e he).2.2.1⟩)
      have hTa : TagStruct (t ++ ext) :=
        tagStruct_append hT (fun e he => (hprop e he).2.2.2.1)
      have hPa : (lookupPath (t ++ ext) p).isSome = true := by
        cases hlp : lookupPath t p with
        | none => rw [hlp] at hP; cases hP
        | some e => rw [lookupPath_append_some ext hlp]; rfl
      cases a with
      | some fp =>
          cases hic : ic && pr with
          | true =>
              rw [ht']
              simpa using hcbr (t ++ ext) fp hMa hTa hPa
          | false =>
              rw [ht']
              simpa using ⟨hMa, hTa, hPa⟩
      | none =>
          cases hic : ic && pr with
          | true =>
              rw [ht']
              simpa using hcbr (t ++ ext) q hMa hTa hPa
          | false =>
              rw [ht']
              simpa using ⟨hMa, hTa, hPa⟩

theorem node_for_path_blank (t : Tree) (q : Path) (ic pr : Bool)
    (hblank : ∀ e, e ∈ t → e.positive_mask = SpaceBitmask.init ∧
      e.negative_mask = SpaceBitmask.init)
    (hT : TagStruct t) :
    (∀ e, e ∈ (node_for_path t q ic pr).2 → e.positive_mask = SpaceBitmask.init ∧
      e.negative_mask = SpaceBitmask.init) ∧ TagStruct (node_for_path t q ic pr).2 := by
  unfold node_for_path
  have hcbr : ∀ (t1 : Tree) (fp : Path),
      (∀ e, e ∈ t1 → e.positive_mask = SpaceBitmask.init ∧
        e.negative_mask = SpaceBitmask.init) → TagStruct t1 →
      (∀ e, e ∈ updatePath t1 fp (fun e => { e with created_by_rule := true }) →
        e.positive_mask = SpaceBitmask.init ∧ e.negative_mask = SpaceBitmask.init) ∧
      TagStruct (updatePath t1 fp (fun e => { e with created_by_rule := true })) := by
    intro t1 fp hb ht
    refine ⟨?_, tagStruct_updatePath_pres (fun e => ⟨rfl, rfl⟩) ht⟩
    intro e' he'
    rcases mem_updatePath he' with ⟨e, he, heq⟩
    subst heq
    by_cases hcc : (e.path == fp) = true
    · rw [if_pos hcc]
      exact hb e he
    · rw [if_neg hcc]
      exact hb e he
  cases hl : lookupPath t q with
  | some e0 =>
      cases hic : ic && pr with
      | true => simpa using hcbr t q hblank hT
      | false => simpa using ⟨hblank, hT⟩
  | none =>
      rcases hw : walkPath t (splitSlash q) with ⟨a, t'⟩
      rcases walk_fold_spec (splitSlash q) none t with ⟨ext, hext2, hprop⟩
      have ht' : t' = t ++ ext := by
        have h2 : (walkPath t (splitSlash q)).2 = t ++ ext := hext2
        rw [hw] at h2
        exact h2
      have hba : ∀ e, e ∈ t ++ ext → e.positive_mask = SpaceBitmask.init ∧
          e.negative_mask = SpaceBitmask.init := by
        intro e he
        rcases List.mem_append.mp he with h | h
        · exact hblank e h
        · exact ⟨(hprop e h).1, (hprop e h).2.1⟩
      have hTa : TagStruct (t ++ ext) :=
        tagStruct_append hT (fun e he => (hprop e he).2.2.2.1)
      cases a with
      | some fp =>
          cases hic : ic && pr with
          | true =>
              rw [ht']
              simpa using hcbr (t ++ ext) fp hba hTa
          | false =>
              rw [ht']
              exact ⟨hba, hTa⟩
      | none =>
          cases hic : ic && pr with
          | true =>
              rw [ht']
              simpa using hcbr (t ++ ext) q hba hTa
          | false =>
              rw [ht']
              exact ⟨hba, hTa⟩

theorem addedLookup_nil (q : Path) : addedLookup [] q = [] := rfl

theorem recSpacesOf_empty (st : NS) (e : TEntry) (p : Path) (hM : MaskConc p st.tree)
    (hT : TagStruct st.tree) (hstar : '*' ∉ p) (hp : p ≠ []) :
    recSpacesOf st [] e = [] := by
  unfold recSpacesOf
  cases hpar : e.parent with
  | none => simp [addedLookup, find_recursive_node, List.find?]
  | some pp =>
      cases hfr : find_recursive_node
          ((childrenOf st.tree pp).filter (fun s2 => s2.path != e.path)) with
      | none => simp [addedLookup, hfr]
      | some sib =>
          have hmem : sib ∈ st.tree := by
            have h1 := List.mem_of_find?_eq_some hfr
            have h2 := (List.mem_filter.mp h1).1
            exact (List.mem_filter.mp h2).1
          have htag : sib.tag = recursive_regex := by
            have h2 := List.find?_some hfr
            simpa using h2
          have hne : sib.path ≠ p := by
            rcases hT sib hmem with h0 | ⟨pp2, hpp2⟩
            · rw [h0]
              exact fun h => hp h.symm
            · intro hq
              apply hstar
              rw [← hq, hpp2, htag]
              exact List.mem_append.mpr (Or.inr (by decide))
          have hblank := hM sib hmem
          have hact : active_spaces st.vs sib = [] := by
            unfold active_spaces
            have hmask : ∀ v : VSpace, sib.spaces_mask_test v.index = false := by
              intro v
              unfold TEntry.spaces_mask_test
              rw [hblank.2, if_neg hne, hblank.1]
              simp [SpaceBitmask.is_space_set, SpaceBitmask.init]
            have hfilter : st.vs.filter (fun v => sib.spaces_mask_test v.index) = [] := by
              induction st.vs with
              | nil => rfl
              | cons v vs ih => simp [List.filter_cons, hmask v, ih]
            rw [hfilter]
            rfl
          simp [hfr, hact, addedLookup]

theorem regexStep_litInv (s p : Path) (hp : p ≠ []) (hstar : '*' ∉ p)
    (acc : NS × List (Path × List Nat)) (v : Path)
    (h : LitInv s p acc.1 ∧ acc.2 = []) :
    LitInv s p (regexStep acc v).1 ∧ (regexStep acc v).2 = [] := by
  obtain ⟨hL, hadd⟩ := h
  obtain ⟨hc, hm, hvs, hM, hT, hP⟩ := hL
  have hnp := fun (q2 : Path) => node_for_path_litTree acc.1.tree q2 true
    acc.1.processing_rules p hM hT hP
  simp only [regexStep]
  split
  · exact ⟨⟨hc, hm, hvs, hM, hT, hP⟩, hadd⟩
  next e heq =>
    split
    · exact ⟨⟨hc, hm, hvs, hM, hT, hP⟩, hadd⟩
    next hfr =>
      split
      · exact ⟨⟨hc, hm, hvs, (hnp _).1, (hnp _).2.1, (hnp _).2.2⟩, hadd⟩
      next hnev =>
        split
        · exact ⟨⟨hc, hm, hvs, (hnp _).1, (hnp _).2.1, (hnp _).2.2⟩, hadd⟩
        next hsp =>
          rw [hadd] at hsp
          exact absurd (recSpacesOf_empty acc.1 e p hM hT hstar hp) hsp

theorem process_regex_litInv (s p : Path) (hp : p ≠ []) (hstar : '*' ∉ p) (st : NS)
    (h : LitInv s p st) : LitInv s p st.process_regex_nodes := by
  unfold NS.process_regex_nodes
  cases lookupPath st.tree ([] : Path) with
  | none => exact h
  | some rootE =>
      have hfold := foldl_pres (fun acc : NS × List (Path × List Nat) =>
        LitInv s p acc.1 ∧ acc.2 = []) regexStep
        (fun a v ha => regexStep_litInv s p hp hstar a v ha)
        (dfsExpand st.tree (st.tree.length + 2) [rootE]) (st, []) ⟨h, rfl⟩
      exact hfold.1

theorem add_real_from_empty (st : NS) (p : Path) (hp : ∃ q, p = '/' :: q)
    (htree : st.tree = []) (hpr : st.processing_rules = true) :
    MaskConc p (addRealStep 0 st p).tree ∧ TagStruct (addRealStep 0 st p).tree ∧
    (lookupPath (addRealStep 0 st p).tree p).isSome = true := by
  have hp2 : p = [] ∨ ∃ q, p = '/' :: q := Or.inr hp
  simp only [addRealStep]
  rw [htree, hpr]
  have hfst := node_for_path_fst [] p true true hp2
  rw [hfst]
  have hblank := node_for_path_blank [] p true true
    (fun e he => absurd he (List.not_mem_nil e)) (fun e he => absurd he (List.not_mem_nil e))
  rcases node_for_path_resolves [] p true true with ⟨e0, he0⟩
  rw [hfst] at he0
  refine ⟨?_, ?_, ?_⟩
  · intro e' he'
    rcases mem_updatePath he' with ⟨e, he, heq⟩
    subst heq
    rcases hblank.1 e he with ⟨hbp, hbn⟩
    by_cases hcc : (e.path == p) = true
    · rw [if_pos hcc]
      have hpath : e.path = p := by simpa using hcc
      refine ⟨hbn, ?_⟩
      have hpos : (e.spaces_mask_set 0 true).positive_mask = SpaceBitmask.mk 1 1 := by
        show e.positive_mask.mask_set 0 true = SpaceBitmask.mk 1 1
        rw [hbp]
        decide
      rw [hpos, if_pos (show (TEntry.spaces_mask_set e 0 true).path = p from hpath)]
    · rw [if_neg hcc]
      have hpath : e.path ≠ p := by simpa using hcc
      exact ⟨hbn, by rw [hbp, if_neg hpath]⟩
  · exact tagStruct_updatePath_pres (fun e => ⟨rfl, rfl⟩) hblank.2
  · exact lookupPath_updatePath_isSome (fun e => rfl) (by rw [he0]; rfl)

theorem internal1_start (s p : Path) (hp : ∃ q, p = '/' :: q) :
    LitInv s p ((⟨1, [(s, 0)], [], [⟨s, 0, [], [p], [], [], []⟩],
      true⟩ : NS).space_update_internal) := by
  have hOS : OneSpace (⟨1, [(s, 0)], [], [⟨s, 0, [], [p], [], [], []⟩], true⟩ : NS) s :=
    ⟨rfl, ⟨s, 0, [], [p], [], [], []⟩, rfl, rfl, rfl, rfl, rfl⟩
  unfold NS.space_update_internal
  rw [build_topo_oneSpace hOS]
  show LitInv s p ((⟨1, [(s, 0)], [], [⟨s, 0, [], [p], [], [], []⟩],
    true⟩ : NS).applySpace 0)
  rw [applySpace_oneSpace (⟨1, [(s, 0)], [], [⟨s, 0, [], [p], [], [], []⟩], true⟩ : NS)
    ⟨s, 0, [], [p], [], [], []⟩ rfl rfl rfl]
  show LitInv s p (((((⟨1, [(s, 0)], [], [⟨s, 0, [], [p], [], [], []⟩],
      true⟩ : NS).space_add_real s [p]).updateVS 0
      (fun w => { w with subspaces_add := [], nodes_add := [] })).space_sub_real s
      []).updateVS 0 (fun w => { w with subspaces_sub := [], nodes_sub := [] }))
  have hB1 : (⟨1, [(s, 0)], [], [⟨s, 0, [], [p], [], [], []⟩],
      true⟩ : NS).space_add_real s [p] =
      addRealStep 0 ((⟨1, [(s, 0)], [], [⟨s, 0, [], [p], [], [], []⟩],
        true⟩ : NS).updateVS 0 (fun v => { v with nodes := setUpdate v.nodes [p] })) p := by
    unfold NS.space_add_real
    rw [spaceCreate_found (show lookupName [(s, 0)] s = some 0 from lookupName_single s)]
    rfl
  rw [hB1]
  have hB3 : ((addRealStep 0 ((⟨1, [(s, 0)], [], [⟨s, 0, [], [p], [], [], []⟩],
      true⟩ : NS).updateVS 0 (fun v => { v with nodes := setUpdate v.nodes [p] }))
      p).updateVS 0 (fun w => { w with subspaces_add := [], nodes_add := [] })).space_sub_real
      s [] =
      ((addRealStep 0 ((⟨1, [(s, 0)], [], [⟨s, 0, [], [p], [], [], []⟩],
        true⟩ : NS).updateVS 0 (fun v => { v with nodes := setUpdate v.nodes [p] }))
        p).updateVS 0 (fun w => { w with subspaces_add := [], nodes_add := [] })).updateVS 0
        (fun v => { v with nodes := setDiffUpdate v.nodes [] }) := by
    unfold NS.space_sub_real
    rw [spaceCreate_found (show lookupName [(s, 0)] s = some 0 from lookupName_single s)]
    rfl
  rw [hB3]
  have hA := add_real_from_empty ((⟨1, [(s, 0)], [], [⟨s, 0, [], [p], [], [], []⟩],
    true⟩ : NS).updateVS 0 (fun v => { v with nodes := setUpdate v.nodes [p] })) p hp rfl rfl
  exact ⟨rfl, rfl, ⟨⟨s, 0, setDiffUpdate (setUpdate [] [p]) [], [], [], [], []⟩,
    rfl, rfl, rfl, rfl, rfl, rfl, rfl⟩, hA.1, hA.2.1, hA.2.2⟩

theorem internal_litInv (s p : Path) (st : NS) (h : LitInv s p st) :
    LitInv s p st.space_update_internal := by
  obtain ⟨hc, hm, ⟨v, hvs, hidx, hname, hna, hns, hsa, hss⟩, hM, hT, hP⟩ := h
  have hOS : OneSpace st s := ⟨hm, v, hvs, hidx, hname, hsa, hss⟩
  unfold NS.space_update_internal
  rw [build_topo_oneSpace hOS]
  show LitInv s p (st.applySpace 0)
  rw [applySpace_oneSpace st v hvs hsa hss, hname, hna, hns]
  have hA : st.space_add_real s [] = st.updateVS 0
      (fun w => { w with nodes := setUpdate w.nodes [] }) := by
    unfold NS.space_add_real
    rw [spaceCreate_found (show lookupName st.name_index_map s = some 0 from by
      rw [hm]; exact lookupName_single s)]
    rfl
  rw [hA]
  have hmap2 : lookupName (((st.updateVS 0
      (fun w => { w with nodes := setUpdate w.nodes [] })).updateVS 0
      (fun w => { w with subspaces_add := [], nodes_add := [] }))).name_index_map s =
      some 0 := by
    show lookupName st.name_index_map s = some 0
    rw [hm]
    exact lookupName_single s
  have hB : (((st.updateVS 0 (fun w => { w with nodes := setUpdate w.nodes [] })).updateVS 0
      (fun w => { w with subspaces_add := [], nodes_add := [] }))).space_sub_real s [] =
      (((st.updateVS 0 (fun w => { w with nodes := setUpdate w.nodes [] })).updateVS 0
        (fun w => { w with subspaces_add := [], nodes_add := [] }))).updateVS 0
        (fun w => { w with nodes := setDiffUpdate w.nodes [] }) := by
    unfold NS.space_sub_real
    rw [spaceCreate_found hmap2]
    rfl
  rw [hB]
  refine ⟨hc, hm, ?_, hM, hT, hP⟩
  refine ⟨⟨v.name, v.index, setDiffUpdate (setUpdate v.nodes []) [], [], [], [], []⟩,
    ?_, hidx, hname, rfl, rfl, rfl, rfl⟩
  show (st.vs.map _ |>.map _ |>.map _ |>.map _) = _
  rw [hvs]
  simp [hidx]

theorem lookupName_single_ne (s s2 : Path) (h : s2 ≠ s) :
    lookupName [(s, 0)] s2 = none := by
  have hb : (s == s2) = false := beq_eq_false_iff_ne.mpr (Ne.symm h)
  simp [lookupName, List.find?, hb]

theorem test_true_single {st : NS} {s p : Path} {e : TEntry}
    (h0 : lookupName st.name_index_map s = some 0)
    (he : lookupPath st.tree p = some e) (hmask : e.spaces_mask_test 0 = true) :
    (st.space_test s [p]).1 = true := by
  unfold NS.space_test
  rw [spaceCreate_found h0]
  simp only [NS.testLoop]
  unfold node_for_path
  simp [he, hmask, NS.testLoop]

theorem test_false_blank {st : NS} {s q p : Path}
    (h0 : lookupName st.name_index_map s = some 0)
    (hq : q = [] ∨ ∃ r, q = '/' :: r) (hne : q ≠ p)
    (hM : MaskConc p st.tree) (hT : TagStruct st.tree)
    (hP : (lookupPath st.tree p).isSome = true) :
    (st.space_test s [q]).1 = false := by
  unfold NS.space_test
  rw [spaceCreate_found h0]
  simp only [NS.testLoop]
  have hfst := node_for_path_fst st.tree q false st.processing_rules hq
  rcases node_for_path_resolves st.tree q false st.processing_rules with ⟨e, he⟩
  rw [hfst] at he
  have hMt := (node_for_path_litTree st.tree q false st.processing_rules p hM hT hP).1
  have hblank := hMt e (lookupPath_mem he).1
  have hmask : e.spaces_mask_test 0 = false := by
    unfold TEntry.spaces_mask_test
    rw [hblank.2, (lookupPath_mem he).2, if_neg hne]
    simp [SpaceBitmask.is_space_set, SpaceBitmask.init]
  rw [hfst, he]
  simp [hmask]

theorem test_false_new_space {st : NS} {s2 p : Path} {e : TEntry}
    (hlook : lookupName st.name_index_map s2 = none) (hcnt : st.counter = 1)
    (he : lookupPath st.tree p = some e) (hmask : e.spaces_mask_test 1 = false) :
    (st.space_test s2 [p]).1 = false := by
  unfold NS.space_test NS.spaceCreate
  rw [hlook, hcnt]
  simp only [NS.testLoop]
  unfold node_for_path
  simp [he, hmask]

/-- Claim C3: committing a single wildcard-free, non-recursive absolute
literal rule `p` for a fresh space `s` from the initial state makes
`space_test(s, p)` true, makes `space_test(s, q)` false for every other
absolute path `q` (in particular every strict ancestor and every unrelated
path), and makes `space_test(s2, p)` false for every other space name
`s2`. -/
theorem claim_C3_thm (s p : Path) (hp : ∃ q, p = '/' :: q) (hstar : '*' ∉ p)
    (hrec : findSub recursive_pref p = none) :
    ((((NS.init.space_add s [p]).2).space_update).space_test s [p]).1 = true ∧
    (∀ q, (q = [] ∨ ∃ r, q = '/' :: r) → q ≠ p →
      ((((NS.init.space_add s [p]).2).space_update).space_test s [q]).1 = false) ∧
    (∀ s2, s2 ≠ s →
      ((((NS.init.space_add s [p]).2).space_update).space_test s2 [p]).1 = false) := by
  have hint := interp_literal p hp hstar hrec
  rw [init_add_eq s p [p] [] hp hint]
  have hpne : p ≠ [] := by
    rcases hp with ⟨q, rfl⟩
    simp
  have hLit : LitInv s p ((⟨1, [(s, 0)], [], [⟨s, 0, [], [p], [], [], []⟩],
      true⟩ : NS).space_update) := by
    have hLitD := internal1_start s p hp
    unfold NS.space_update
    exact internal_litInv s p _ (process_regex_litInv s p hpne hstar
      ({ (⟨1, [(s, 0)], [], [⟨s, 0, [], [p], [], [], []⟩],
        true⟩ : NS).space_update_internal with processing_rules := false }) hLitD)
  obtain ⟨hc, hm, hvsx, hM, hT, hP⟩ := hLit
  obtain ⟨e, he⟩ := Option.isSome_iff_exists.mp hP
  have hep : e.path = p := (lookupPath_mem he).2
  have hmask0 : e.spaces_mask_test 0 = true := by
    rcases hM e (lookupPath_mem he).1 with ⟨hn, hpos⟩
    unfold TEntry.spaces_mask_test
    rw [hpos, hep, if_pos rfl, hn]
    decide
  have hmask1 : e.spaces_mask_test 1 = false := by
    rcases hM e (lookupPath_mem he).1 with ⟨hn, hpos⟩
    unfold TEntry.spaces_mask_test
    rw [hpos, hep, if_pos rfl, hn]
    decide
  refine ⟨?_, ?_, ?_⟩
  · exact test_true_single (by rw [hm]; exact lookupName_single s) he hmask0
  · intro q hq hne
    exact test_false_blank (by rw [hm]; exact lookupName_single s) hq hne hM hT hP
  · intro s2 hs2
    exact test_false_new_space (by rw [hm]; exact lookupName_single_ne s s2 hs2) hc he hmask1

/-- Witness for claim C3 on the spec scenario: space `k`, rule
`/etc/gss/bc`, ancestor probe `/etc/gss`, other space `j`. -/
theorem claim_C3_witness :
    (∃ q, (("/etc/gss/bc".toList) : Path) = '/' :: q) ∧
    ('*' ∉ (("/etc/gss/bc".toList) : Path)) ∧
    findSub recursive_pref ("/etc/gss/bc".toList) = none ∧
    ((((NS.init.space_add ("k".toList) [("/etc/gss/bc".toList)]).2).space_update).space_test
      ("k".toList) [("/etc/gss/bc".toList)]).1 = true ∧
    ((((NS.init.space_add ("k".toList) [("/etc/gss/bc".toList)]).2).space_update).space_test
      ("k".toList) [("/etc/gss".toList)]).1 = false ∧
    ((((NS.init.space_add ("k".toList) [("/etc/gss/bc".toList)]).2).space_update).space_test
      ("j".toList) [("/etc/gss/bc".toList)]).1 = false :=
  have h := claim_C3_thm ("k".toList) ("/etc/gss/bc".toList)
    ⟨"etc/gss/bc".toList, by decide⟩ (by decide) (by decide)
  ⟨⟨"etc/gss/bc".toList, by decide⟩, by decide, by decide, h.1,
   h.2.1 ("/etc/gss".toList) (Or.inr ⟨"etc/gss".toList, by decide⟩) (by decide),
   h.2.2 ("j".toList) (by decide)⟩

/-! ### The digest layer: determinism, stability and well-formedness -/

namespace Digest

theorem ud_mono (g : List Nat → List Nat) (L : Nat) (p : Path) :
    ∀ (f1 f2 : Nat) (t : DTree) (cur : List Nat) (r : List Nat × Option ANode),
      f1 ≤ f2 → unique_digest g L p f1 t cur = some r →
      unique_digest g L p f2 t cur = some r
  | 0, _, _, _, _, _, h => by cases h
  | f1 + 1, f2, t, cur, r, hle, h => by
      cases f2 with
      | zero => exact absurd hle (by omega)
      | succ f2 =>
          simp only [unique_digest] at h ⊢
          cases hl : lookupD t ((g cur).take L) with
          | none =>
              simp only [hl] at h ⊢
              exact h
          | some n =>
              simp only [hl] at h ⊢
              by_cases hpp : n.path = p
              · rw [if_pos hpp] at h ⊢
                exact h
              · rw [if_neg hpp] at h ⊢
                exact ud_mono g L p f1 f2 t ((g cur).take L) r (by omega) h

theorem ud_some (g : List Nat → List Nat) (L : Nat) (p : Path) :
    ∀ (f : Nat) (t : DTree) (cur d : List Nat) (r : Option ANode),
      unique_digest g L p f t cur = some (d, r) →
      (r = none ∧ lookupD t d = none) ∨
      (∃ n, r = some n ∧ lookupD t d = some n ∧ n.path = p)
  | 0, _, _, _, _, h => by cases h
  | f + 1, t, cur, d, r, h => by
      simp only [unique_digest] at h
      cases hl : lookupD t ((g cur).take L) with
      | none =>
          simp only [hl] at h
          injection h with h1
          injection h1 with h2 h3
          subst h2
          exact Or.inl ⟨h3.symm, hl⟩
      | some n =>
          simp only [hl] at h
          by_cases hpp : n.path = p
          · rw [if_pos hpp] at h
            injection h with h1
            injection h1 with h2 h3
            subst h2
            exact Or.inr ⟨n, h3.symm, hl, hpp⟩
          · rw [if_neg hpp] at h
            exact ud_some g L p f t ((g cur).take L) d r h

theorem lookupD_append_some {t : DTree} {d : List Nat} {n : ANode} (x : List Nat × ANode)
    (h : lookupD t d = some n) : lookupD (t ++ [x]) d = some n := by
  unfold lookupD at h ⊢
  cases hf : t.find? (fun kv => kv.1 == d) with
  | none => rw [hf] at h; cases h
  | some kv =>
      rw [hf] at h
      rw [List.find?_append, hf]
      exact h

theorem lookupD_append_none {t : DTree} {d : List Nat} (h : lookupD t d = none)
    (ne : ANode) : lookupD (t ++ [(d, ne)]) d = some ne := by
  unfold lookupD at h ⊢
  cases hf : t.find? (fun kv => kv.1 == d) with
  | some kv => rw [hf] at h; cases h
  | none =>
      rw [List.find?_append, hf]
      simp [List.find?]

theorem lookupD_mem {t : DTree} {d : List Nat} {n : ANode}
    (h : lookupD t d = some n) : (d, n) ∈ t := by
  unfold lookupD at h
  cases hf : t.find? (fun kv => kv.1 == d) with
  | none => rw [hf] at h; cases h
  | some kv =>
      rw [hf] at h
      injection h with h1
      have hm := List.mem_of_find?_eq_some hf
      have hpred := List.find?_some hf
      rcases kv with ⟨k1, k2⟩
      simp only at h1
      have hk1 : k1 = d := by simpa using hpred
      rw [hk1, h1] at hm
      exact hm

theorem ud_append (g : List Nat → List Nat) (L : Nat) (p : Path) (x : List Nat × ANode) :
    ∀ (f : Nat) (t : DTree) (cur d : List Nat) (n : ANode),
      unique_digest g L p f t cur = some (d, some n) →
      unique_digest g L p f (t ++ [x]) cur = some (d, some n)
  | 0, _, _, _, _, h => by cases h
  | f + 1, t, cur, d, n, h => by
      simp only [unique_digest] at h ⊢
      cases hl : lookupD t ((g cur).take L) with
      | none =>
          simp only [hl] at h
          injection h with h1
          injection h1 with h2 h3
          cases h3
      | some n2 =>
          simp only [hl] at h
          simp only [lookupD_append_some x hl]
          by_cases hpp : n2.path = p
          · rw [if_pos hpp] at h ⊢
            exact h
          · rw [if_neg hpp] at h ⊢
            exact ud_append g L p x f t ((g cur).take L) d n h

theorem ud_append_free (g : List Nat → List Nat) (L : Nat) (p : Path) (dn : List Nat)
    (ne : ANode) (hne : ne.path = p) :
    ∀ (f : Nat) (t : DTree) (cur : List Nat),
      unique_digest g L p f t cur = some (dn, none) →
      unique_digest g L p f (t ++ [(dn, ne)]) cur = some (dn, some ne)
  | 0, _, _, h => by cases h
  | f + 1, t, cur, h => by
      simp only [unique_digest] at h ⊢
      cases hl : lookupD t ((g cur).take L) with
      | none =>
          simp only [hl] at h
          injection h with h1
          injection h1 with h2 h3
          subst h2
          simp only [lookupD_append_none hl ne]
          rw [if_pos hne]
      | some n2 =>
          simp only [hl] at h
          simp only [lookupD_append_some (dn, ne) hl]
          by_cases hpp : n2.path = p
          · rw [if_pos hpp] at h
            injection h with h1
            injection h1 with h2 h3
            cases h3
          · rw [if_neg hpp] at h
            rw [if_neg hpp]
            exact ud_append_free g L p dn ne hne f t ((g cur).take L) h

theorem wf_insert (g : List Nat → List Nat) (enc : Path → List Nat) (L : Nat)
    {t : DTree} (hWF : WF g enc L t) {d : List Nat} {ne : ANode} {f : Nat}
    (hrun : unique_digest g L ne.path f t (enc ne.path) = some (d, none)) :
    WF g enc L (t ++ [(d, ne)]) := by
  intro d0 n0 hmem
  rcases List.mem_append.mp hmem with h | h
  · rcases hWF d0 n0 h with ⟨f0, hf0⟩
    exact ⟨f0, ud_append g L n0.path (d, ne) f0 t (enc n0.path) d0 n0 hf0⟩
  · have heq := List.mem_singleton.mp h
    injection heq with h1 h2
    subst h1
    subst h2
    exact ⟨f, ud_append_free g L n0.path d0 n0 rfl f t (enc n0.path) hrun⟩

theorem walkD_spec (g : List Nat → List Nat) (enc : Path → List Nat) (L fuel : Nat)
    (comps : List Path) :
    ∀ (t : DTree) (pp : Option Path) (pd : Option (List Nat)) (d : List Nat)
      (n : ANode) (t2 : DTree), WF g enc L t →
      walkD g enc L fuel t pp pd comps = some (d, n, t2) →
      WF g enc L t2 ∧ lookupD t2 d = some n ∧
        comps.foldl chainStep pp = some n.path := by
  induction comps with
  | nil =>
      intro t pp pd d n t2 _ hrun
      cases hrun
  | cons comp rest ih =>
      intro t pp pd d n t2 hWF hrun
      simp only [walkD] at hrun
      generalize hch : (match pp with
        | none => ([] : Path)
        | some pp2 => pp2 ++ '/' :: comp) = child at hrun
      have hcs : chainStep pp comp = some child := by
        cases pp with
        | none =>
            rw [← hch]
            rfl
        | some pp2 =>
            rw [← hch]
            rfl
      cases hud : unique_digest g L child fuel t (enc child) with
      | none =>
          rw [hud] at hrun
          cases hrun
      | some dr =>
          rcases dr with ⟨dd, rr⟩
          cases rr with
          | some nn =>
              rw [hud] at hrun
              rcases ud_some g L child fuel t (enc child) dd (some nn) hud with
                ⟨hno, _⟩ | ⟨n2, hsome, hlk, hpath⟩
              · cases hno
              · injection hsome with hn2
                subst hn2
                cases rest with
                | nil =>
                    injection hrun with h1
                    injection h1 with h2 h3
                    injection h3 with h4 h5
                    subst h2
                    subst h4
                    subst h5
                    refine ⟨hWF, hlk, ?_⟩
                    rw [List.foldl_cons, hcs, List.foldl_nil, hpath]
                | cons c2 cs2 =>
                    have hrec := ih t (some child) (some dd) d n t2 hWF hrun
                    refine ⟨hrec.1, hrec.2.1, ?_⟩
                    rw [List.foldl_cons, hcs]
                    exact hrec.2.2
          | none =>
              rw [hud] at hrun
              rcases ud_some g L child fuel t (enc child) dd none hud with
                ⟨_, hno⟩ | ⟨n2, hsome, _, _⟩
              · have hWF2 : WF g enc L (t ++ [(dd, (⟨comp, pd, child⟩ : ANode))]) :=
                  wf_insert g enc L hWF hud
                cases rest with
                | nil =>
                    injection hrun with h1
                    injection h1 with h2 h3
                    injection h3 with h4 h5
                    subst h2
                    subst h4
                    subst h5
                    refine ⟨hWF2, lookupD_append_none hno _, ?_⟩
                    rw [List.foldl_cons, hcs, List.foldl_nil]
                | cons c2 cs2 =>
                    have hrec := ih (t ++ [(dd, ⟨comp, pd, child⟩)]) (some child)
                      (some dd) d n t2 hWF2 hrun
                    refine ⟨hrec.1, hrec.2.1, ?_⟩
                    rw [List.foldl_cons, hcs]
                    exact hrec.2.2
              · cases hsome

theorem node_for_path_spec (g : List Nat → List Nat) (enc : Path → List Nat)
    (L fuel : Nat) (t : DTree) (p : Path) (hp : absOk p) (hWF : WF g enc L t)
    (d : List Nat) (n : ANode) (t2 : DTree)
    (hrun : node_for_path g enc L fuel t p = some (d, n, t2)) :
    WF g enc L t2 ∧ lookupD t2 d = some n ∧ n.path = p ∧
      ∃ f2, node_for_path g enc L f2 t2 p = some (d, n, t2) := by
  unfold node_for_path at hrun
  cases hud : unique_digest g L p fuel t (enc p) with
  | none =>
      rw [hud] at hrun
      cases hrun
  | some dr =>
      rcases dr with ⟨dd, rr⟩
      cases rr with
      | some nn =>
          rw [hud] at hrun
          injection hrun with h1
          injection h1 with h2 h3
          injection h3 with h4 h5
          subst h2
          subst h4
          subst h5
          rcases ud_some g L p fuel t (enc p) dd (some nn) hud with
            ⟨hno, _⟩ | ⟨n2, hsome, hlk, hpath⟩
          · cases hno
          · injection hsome with hn2
            subst hn2
            refine ⟨hWF, hlk, hpath, fuel, ?_⟩
            unfold node_for_path
            rw [hud]
      | none =>
          rw [hud] at hrun
          have hw := walkD_spec g enc L fuel (splitSlash p) t none none d n t2 hWF hrun
          rcases hw with ⟨hWF2, hlook, hfold⟩
          have hfold2 : (splitSlash p).foldl chainStep none = some p := chain_fold_abs p hp
          have hnp : n.path = p := by
            rw [hfold] at hfold2
            exact Option.some_inj.mp hfold2
          refine ⟨hWF2, hlook, hnp, ?_⟩
          rcases hWF2 d n (lookupD_mem hlook) with ⟨f2, hf2⟩
          rw [hnp] at hf2
          refine ⟨f2, ?_⟩
          unfold node_for_path
          rw [hf2]

theorem wf_bijection (g : List Nat → List Nat) (enc : Path → List Nat) (L : Nat)
    (t : DTree) (hWF : WF g enc L t) :
    ∀ d1 n1 d2 n2, (d1, n1) ∈ t → (d2, n2) ∈ t → (d1 = d2 ↔ n1.path = n2.path) := by
  intro d1 n1 d2 n2 h1 h2
  rcases hWF d1 n1 h1 with ⟨f1, hf1⟩
  rcases hWF d2 n2 h2 with ⟨f2, hf2⟩
  have hl1 : lookupD t d1 = some n1 := by
    rcases ud_some g L n1.path f1 t (enc n1.path) d1 (some n1) hf1 with
      ⟨hno, _⟩ | ⟨nx, hx, hlx, _⟩
    · cases hno
    · injection hx with hx2
      subst hx2
      exact hlx
  have hl2 : lookupD t d2 = some n2 := by
    rcases ud_some g L n2.path f2 t (enc n2.path) d2 (some n2) hf2 with
      ⟨hno, _⟩ | ⟨nx, hx, hlx, _⟩
    · cases hno
    · injection hx with hx2
      subst hx2
      exact hlx
  constructor
  · intro hd
    subst hd
    have h3 := hl1.symm.trans hl2
    injection h3 with h4
    rw [h4]
  · intro hpq
    rw [← hpq] at hf2
    rcases Nat.le_total f1 f2 with hle | hle
    · have hm := ud_mono g L n1.path f1 f2 t (enc n1.path) (d1, some n1) hle hf1
      have h3 := hm.symm.trans hf2
      exact (Prod.ext_iff.mp (Option.some_inj.mp h3)).1
    · have hm := ud_mono g L n1.path f2 f1 t (enc n1.path) (d2, some n2) hle hf2
      have h3 := hf1.symm.trans hm
      exact (Prod.ext_iff.mp (Option.some_inj.mp h3)).1

end Digest

/-- Claim C9: the digest-to-node mapping is a bijection over the distinct
path strings present in the tree.  On any well-formed digest tree, a
successful resolution of an absolute (or root) path returns a node whose
stored path is exactly the requested one, preserves well-formedness,
resolving the same path again returns the same digest, the same node and
the unchanged tree (idempotence), and any two stored entries have equal
digests exactly when they store equal paths — for every digest function
`g`, so independently of truncation collisions, which the
rehash-and-retry loop resolves. -/
theorem claim_C9_thm (g : List Nat → List Nat) (enc : Path → List Nat) (L fuel : Nat)
    (t : Digest.DTree) (p : Path) (hp : Digest.absOk p) (hWF : Digest.WF g enc L t)
    (d : List Nat) (n : Digest.ANode) (t2 : Digest.DTree)
    (hrun : Digest.node_for_path g enc L fuel t p = some (d, n, t2)) :
    n.path = p ∧ Digest.WF g enc L t2 ∧
    (∃ f2, Digest.node_for_path g enc L f2 t2 p = some (d, n, t2)) ∧
    (∀ d1 n1 d2 n2, (d1, n1) ∈ t2 → (d2, n2) ∈ t2 → (d1 = d2 ↔ n1.path = n2.path)) := by
  have hs := Digest.node_for_path_spec g enc L fuel t p hp hWF d n t2 hrun
  exact ⟨hs.2.2.1, hs.1, hs.2.2.2, Digest.wf_bijection g enc L t2 hs.1⟩

/-- Witness for claim C9: the identity hasher with byte encoding and digest
length 8, resolving `/a` from the empty (well-formed) tree. -/
theorem claim_C9_witness :
    (Digest.absOk ("/a".toList) ∧
      Digest.node_for_path (fun c => c) (fun p2 => p2.map Char.toNat) 8 3 []
        ("/a".toList) =
        some ([47, 97], ⟨("a".toList), some [], ("/a".toList)⟩,
          [([], ⟨[], none, []⟩), ([47, 97], ⟨("a".toList), some [], ("/a".toList)⟩)])) ∧
    ((⟨("a".toList), some [], ("/a".toList)⟩ : Digest.ANode).path = ("/a".toList) ∧
      Digest.WF (fun c => c) (fun p2 => p2.map Char.toNat) 8
        [([], ⟨[], none, []⟩), ([47, 97], ⟨("a".toList), some [], ("/a".toList)⟩)] ∧
      (∃ f2, Digest.node_for_path (fun c => c) (fun p2 => p2.map Char.toNat) 8 f2
          [([], ⟨[], none, []⟩), ([47, 97], ⟨("a".toList), some [], ("/a".toList)⟩)]
          ("/a".toList) =
        some ([47, 97], ⟨("a".toList), some [], ("/a".toList)⟩,
          [([], ⟨[], none, []⟩), ([47, 97], ⟨("a".toList), some [], ("/a".toList)⟩)])) ∧
      (∀ d1 n1 d2 n2,
        (d1, n1) ∈ ([([], ⟨[], none, []⟩),
          ([47, 97], ⟨("a".toList), some [], ("/a".toList)⟩)] : Digest.DTree) →
        (d2, n2) ∈ ([([], ⟨[], none, []⟩),
          ([47, 97], ⟨("a".toList), some [], ("/a".toList)⟩)] : Digest.DTree) →
        (d1 = d2 ↔ n1.path = n2.path))) :=
  ⟨⟨Or.inr ⟨"a".toList, by decide⟩, by decide⟩,
    claim_C9_thm (fun c => c) (fun p2 => p2.map Char.toNat) 8 3 [] ("/a".toList)
      (Or.inr ⟨"a".toList, by decide⟩) (fun d n h => absurd h (List.not_mem_nil _))
      [47, 97] ⟨("a".toList), some [], ("/a".toList)⟩
      [([], ⟨[], none, []⟩), ([47, 97], ⟨("a".toList), some [], ("/a".toList)⟩)]
      (by decide)⟩

/-! ### Claims C8 and C10 -/

theorem treeExt_testLoop (sid : Nat) :
    ∀ (ps : List Path) (st : NS), TreeExt st.tree ((NS.testLoop sid st ps).2).tree
  | [], _ => treeExt_refl _
  | p :: ps, st => by
      simp only [NS.testLoop]
      have h1 : TreeExt st.tree (node_for_path st.tree p false st.processing_rules).2 :=
        node_for_path_treeExt_no_mark _ _ _
      split
      · split
        · exact treeExt_trans h1 (treeExt_testLoop sid ps
            { st with tree := (node_for_path st.tree p false st.processing_rules).2 })
        · exact h1
      · exact h1

/-- Claim C8: `space_test` may materialize new tree nodes, but every node
that existed before the call is found afterwards completely unchanged — same
positive and negative masks, same provenance bits, same flags.  (`space_test`
resolves with `is_creation = False`, so not even `created_by_rule` moves.) -/
theorem claim_C8_thm (st : NS) (s : Path) (ps : List Path) :
    ∀ p e, lookupPath st.tree p = some e →
      lookupPath ((st.space_test s ps).2).tree p = some e := by
  intro p e h
  have h1 : ((st.spaceCreate s).2).tree = st.tree := spaceCreate_tree st s
  have h2 := treeExt_testLoop (st.spaceCreate s).1 ps (st.spaceCreate s).2
  rw [h1] at h2
  exact h2 p e h

/-- Witness for C8 at a concrete state: probing a fresh path for a fresh
space in `scnC2a` leaves the `/a/b` node (mask and all) untouched. -/
theorem claim_C8_witness :
    lookupPath ((scnC2a.space_test ("z".toList) [("/w".toList)]).2).tree
      ("/a/b".toList) = lookupPath scnC2a.tree ("/a/b".toList) := by
  have hs : (lookupPath scnC2a.tree ("/a/b".toList)).isSome = true := by decide
  rcases hx : lookupPath scnC2a.tree ("/a/b".toList) with _ | e
  · rw [hx] at hs; cases hs
  · exact claim_C8_thm scnC2a ("z".toList) [("/w".toList)] ("/a/b".toList) e hx

/-- Claim C10: a committed exclusion is permanent.  If space `s` has index
`i` and the node of path `p` carries negative bit `i`, then after ANY
sequence of public operations the node still carries the bit, its membership
test for `i` is false, and `space_test(s, p)` returns false. -/
theorem claim_C10_thm (st : NS) (ops : List Op) (s p : Path) (i : Nat) (e : TEntry)
    (hs : lookupName st.name_index_map s = some i)
    (he : lookupPath st.tree p = some e)
    (hneg : e.negative_mask.is_space_set i = true) :
    (∃ e', lookupPath (st.run ops).tree p = some e' ∧
        e'.negative_mask.is_space_set i = true ∧ e'.spaces_mask_test i = false) ∧
    ((st.run ops).space_test s [p]).1 = false := by
  have hk := keeps_run st ops
  have hs' := hk.1 s i hs
  rcases hk.2 p e he with ⟨e', he', hn⟩
  have hneg' := hn i hneg
  have hm : e'.spaces_mask_test i = false := by
    unfold TEntry.spaces_mask_test
    rw [hneg']
    simp
  exact ⟨⟨e', he', hneg', hm⟩, test_false_of_neg _ s p i e' hs' he' hneg'⟩

/-- Witness for C10: in `scnC4` the path `/k` carries negative bit 0 for
space `s`; re-adding it and updating again still tests false. -/
theorem claim_C10_witness :
    ((scnC4.run [Op.add ("s".toList) [("/k".toList)], Op.update]).space_test
      ("s".toList) [("/k".toList)]).1 = false := by
  have hmap : (lookupPath scnC4.tree ("/k".toList)).map
      (fun e => e.negative_mask.is_space_set 0) = some true := by decide
  rcases hx : lookupPath scnC4.tree ("/k".toList) with _ | e
  · rw [hx] at hmap; cases hmap
  · rw [hx] at hmap
    have hneg : e.negative_mask.is_space_set 0 = true := by
      simpa using hmap
    exact (claim_C10_thm scnC4 [Op.add ("s".toList) [("/k".toList)], Op.update]
      ("s".toList) ("/k".toList) 0 e (by decide) hx hneg).2

/-- Claim C1, refuted at a concrete input: in `scnC1pre` the pending
subspace-reference graph has a cycle (`build_topo` fails), yet `space_update`
is not mutation-free — the recursive-inheritance pass between the two aborted
internal passes creates the tree node `/y/.*`, so the post-call state is not
equivalent to the pre-call state. -/
theorem claim_C1_counterexample :
    build_topo scnC1pre = none ∧
    lookupPath scnC1pre.tree ("/y/.*".toList) = none ∧
    (lookupPath scnC1post.tree ("/y/.*".toList)).isSome = true := by
  refine ⟨by decide, by decide, by decide⟩

/-- Claim C4, refuted at a concrete input: queueing `add /k`, `sub /k`,
`add /k` and then committing with one `space_update` leaves
`space_test(s, '/k')` false (the claim asserts it converges to added/true):
the internal pass applies all adds before all subs, and the sub is recorded
in the never-cleared negative mask. -/
theorem claim_C4_counterexample :
    (scnC4.space_test ("s".toList) [("/k".toList)]).1 = false := by decide

/-- Claim C7, refuted at a concrete input: the absolute-path rule
`/docs/recursive things` (leading `/`, no recursive keyword prefix) raises
the `ValueError` of `_validate_rule`, because validation splits on the
substring `recursive ` anywhere in the rule. -/
theorem claim_C7_counterexample :
    (NS.init.space_add ("s".toList) [("/docs/recursive things".toList)]).1 =
      some RuleErr.valueError := by decide

end Mystable
